import Mathlib

/-!
# Verification of the Superdesk planning events service

Shallow embedding of `src/server/planning/events.py`: the recurrence
expansion (`on_create`), series reconciliation (`on_update`), the recurrence
date generator (`generate_recurring_dates`) and the termination-mode
normalizer (`setRecurringMode`).

Modelling conventions:
* Python dicts with optional keys become structures whose fields are
  `Option`-valued; fields whose *presence* and *null value* are distinguished
  by the code (`'k' in d` versus `d.get('k')`) are `Option (Option _)`:
  the outer layer is key presence, the inner layer nullability.
* Instants (`datetime`) are integers counting minutes.  Timezone
  conversion is performed by the external `pytz` library; the claims under
  verification are timezone independent, so the conversion maps are modelled
  as the identity.
* `dateutil.rrule` is an external library (not part of this repository).
  It is modelled from the spec (section 4.1): the ascending enumeration of
  grid-aligned instants passing the weekday filter, seeded at `dtstart`,
  bounded by `until`/`count`, conceptually infinite otherwise.  Months and
  years are idealised to 30 and 360 days; the enumeration is realised over a
  window of `1400` periods, which (by the periodicity lemmas proved below)
  always contains the first 200 occurrences whenever any occurrence exists.
* Python exceptions become an `Err` code; in-place mutation of the `docs`
  list / `updates` dict is made explicit by returning the mutated values,
  also on the error path, mirroring what the exception leaves behind.
-/

namespace Planning

deriving instance DecidableEq for Except

/-- Python exception kinds distinguished by the embedding. -/
inductive Err where
  | keyError
  | typeError
  | attributeError
  | valueError
  deriving DecidableEq, Repr

/-- The weekday constants `MO .. SU` of `dateutil.rrule`. -/
inductive Weekday where
  | mo | tu | we | th | fr | sa | su
  deriving DecidableEq, Repr

/-- `DAYS.get`: the weekday-code table of `events.py` line 37. -/
def dayCode : String → Option Weekday
  | "MO" => some .mo
  | "TU" => some .tu
  | "WE" => some .we
  | "TH" => some .th
  | "FR" => some .fr
  | "SA" => some .sa
  | "SU" => some .su
  | _ => none

/-- The frequency constants of `dateutil.rrule`. -/
inductive Frequency where
  | daily | weekly | monthly | yearly
  deriving DecidableEq, Repr

/-- `FREQUENCIES.get`: the frequency table of `events.py` line 36. -/
def frequencyCode : String → Option Frequency
  | "DAILY" => some .daily
  | "WEEKLY" => some .weekly
  | "MONTHLY" => some .monthly
  | "YEARLY" => some .yearly
  | _ => none

/-- The `byweekday` argument handed to `rrule`: either one ordinal weekday
(`MO(-2)` style, from the ordinal branch of the `byday` parser) or a list of
plain weekdays. -/
inductive Byweekday where
  | ordinal (w : Weekday) (n : Int)
  | plain (ws : List Weekday)
  deriving DecidableEq, Repr

/-- A `dates.recurring_rule` dict.  Every field is `Option (Option _)`:
outer = key present, inner = non-null value.  `until_`/`end_` carry a
trailing underscore because `end` is reserved in Lean; they embed the
`until`/`end` keys. -/
structure RecurringRule where
  frequency : Option (Option String) := none
  interval : Option (Option Nat) := none
  endRepeatMode : Option (Option String) := none
  until_ : Option (Option Int) := none
  count : Option (Option Nat) := none
  byday : Option (Option String) := none
  bymonth : Option (Option String) := none
  byhour : Option (Option String) := none
  byminute : Option (Option String) := none
  deriving DecidableEq, Repr

/-- Python truthiness of a rule dict: non-empty, i.e. some key is present. -/
def RecurringRule.truthy (r : RecurringRule) : Bool :=
  r.frequency.isSome || r.interval.isSome || r.endRepeatMode.isSome ||
  r.until_.isSome || r.count.isSome || r.byday.isSome ||
  r.bymonth.isSome || r.byhour.isSome || r.byminute.isSome

/-- The `dates` sub-dict of an event. -/
structure EventDates where
  start : Option Int := none
  end_ : Option Int := none
  tz : Option (Option String) := none
  recurring_rule : Option (Option RecurringRule) := none
  deriving DecidableEq, Repr

/-- An event document (also used for `updates` payloads — the code passes
both through the same dict shape).  `id` embeds the `_id` key; `name` stands
for the descriptive payload fields copied verbatim across a series;
`skip_on_update` records presence of the re-entrancy sentinel key. -/
structure Doc where
  guid : Option String := none
  id : Option String := none
  recurrence_id : Option (Option String) := none
  original_creator : Option String := none
  version_creator : Option String := none
  expiry : Option (Option Int) := none
  dates : Option EventDates := none
  name : Option String := none
  skip_on_update : Bool := false
  deriving DecidableEq, Repr

/-- `event['dates'].get('recurring_rule', None)` truthiness: the rule used
for branch selection, `some r` exactly when the key holds a non-empty dict. -/
def Doc.truthyRule (e : Doc) : Option RecurringRule :=
  match e.dates with
  | some dd =>
    match dd.recurring_rule with
    | some (some r) => if r.truthy then some r else none
    | _ => none
  | none => none

/-- Notifications pushed through the external notification collaborator. -/
inductive Notif where
  | created (item user : String)
  | createdRecurring (item user : String)
  | updated (item user : String)
  | updatedRecurring (item recurrenceId user : String)
  deriving DecidableEq, Repr

/-! ## `byday` parsing (`generate_recurring_dates`, lines 570-587) -/

/-- A character in the regex class `[1-5]`. -/
def digit15 (c : Char) : Bool := '1' ≤ c && c ≤ '5'

/-- `int(·)` on a single digit character. -/
def digitVal (c : Char) : Int := (c.toNat : Int) - ('0'.toNat : Int)

/-- `re.match(r'^-?[1-5]+.*', byday)`: an optional leading sign, then at
least one digit `1`-`5`, then anything.  Translated from line 571. -/
def regexMatch15 : List Char → Bool
  | '-' :: c :: _ => digit15 c
  | c :: _ => digit15 c
  | [] => false

/-- Python `str.split()` restricted to spaces: split on runs of spaces,
dropping empty tokens. -/
def splitWsAux : List Char → List Char → List (List Char)
  | [], acc => if acc.isEmpty then [] else [acc.reverse]
  | c :: rest, acc =>
    if c = ' ' then
      if acc.isEmpty then splitWsAux rest [] else acc.reverse :: splitWsAux rest []
    else
      splitWsAux rest (c :: acc)

def splitWs (cs : List Char) : List (List Char) := splitWsAux cs []

/-- `[DAYS.get(d) for d in byday.split()]` followed by the weekday check the
rrule constructor performs on the list: any unknown code reaches
`wday.weekday` on `None`, an `AttributeError`. -/
def bydayListBranch (cs : List Char) : Except Err (Option Byweekday) :=
  let toks := splitWs cs
  if toks.isEmpty then
    -- `byday and [...] or None` with an all-whitespace string: empty list
    -- is falsy, so `byweekday` becomes `None`.
    .ok none
  else
    match (toks.map fun t => dayCode (String.mk t)).allSome with
    | some ws => .ok (some (.plain ws))
    | none => .error .attributeError

/-- The `byweekday` computation of `generate_recurring_dates`
(lines 570-587), including the failure modes: in the ordinal branch an
unknown weekday suffix makes `DAYS.get(day_of_week)` return `None`, and
`None(day_of_month)` raises a `TypeError`. -/
def parseBydayCore (cs : List Char) : Except Err (Option Byweekday) :=
  match cs with
  | [] => .ok none
  | cs =>
    if regexMatch15 cs then
      let p : Int × List Char :=
        match cs with
        | '-' :: c :: rest => (-(digitVal c), rest)
        | c :: rest => (digitVal c, rest)
        | [] => (0, [])
      match dayCode (String.mk p.2) with
      | some w => .ok (some (.ordinal w p.1))
      | none => .error .typeError
    else
      bydayListBranch cs

/-- `parseBydayCore` lifted to the nullable `byday` value (an absent or
empty string is falsy at both guards). -/
def parseByday : Option String → Except Err (Option Byweekday)
  | none => .ok none
  | some s => parseBydayCore s.data

/-- The dispatch condition as the claim states it: an optional leading sign
and a single leading digit `1`-`5` followed by exactly a weekday code. -/
def specOrdinalForm : List Char → Bool
  | '-' :: c :: rest => digit15 c && (dayCode (String.mk rest)).isSome
  | c :: rest => digit15 c && (dayCode (String.mk rest)).isSome
  | [] => false

/-- The `byday` treatment described by the amended claim: whenever the
string begins with an optional `-` followed by a digit `1`-`5` — whatever
follows — the ordinal branch applies, the ordinal being that leading signed
digit and the weekday code being the entire remainder (a `TypeError` when
the remainder is not exactly a weekday code); any other non-empty string is
treated as a space-separated list of weekday codes. -/
def parseBydayAmendedCore (cs : List Char) : Except Err (Option Byweekday) :=
  match cs with
  | [] => .ok none
  | cs =>
    let signed := cs.head? = some '-'
    let body := if signed then cs.tail else cs
    match body with
    | c :: rest =>
      if digit15 c then
        let n : Int := if signed then -(digitVal c) else digitVal c
        match dayCode (String.mk rest) with
        | some w => .ok (some (.ordinal w n))
        | none => .error .typeError
      else bydayListBranch cs
    | [] => bydayListBranch cs

def parseBydayAmended (b : Option String) : Except Err (Option Byweekday) :=
  match b with
  | none => .ok none
  | some s => parseBydayAmendedCore s.data

/-! ## `setRecurringMode` (lines 604-612) -/

/-- The mutation `setRecurringMode` applies to a rule dict once
`endRepeatMode` has been read: `count`/`until` keys are overwritten with
`None` (present-null) according to the mode. -/
def setRecurringModeRule (r : RecurringRule) : RecurringRule :=
  match r.endRepeatMode with
  | some (some "unlimited") => { r with count := some none, until_ := some none }
  | some (some "count") => { r with until_ := some none }
  | some (some "until") => { r with count := some none }
  | _ => r

/-- `setRecurringMode(event)` (lines 604-612).  The defaulted chain
`event.get('dates', {}).get('recurring_rule', {}).get('endRepeatMode')`
tolerates missing keys but raises an `AttributeError` when
`recurring_rule` is present with value `None`. -/
def setRecurringMode (e : Doc) : Except Err Doc :=
  match e.dates with
  | none => .ok e
  | some dd =>
    match dd.recurring_rule with
    | none => .ok e
    | some none => .error .attributeError
    | some (some r) =>
      let put : RecurringRule → Except Err Doc := fun r' =>
        .ok { e with dates := some { dd with recurring_rule := some (some r') } }
      match r.endRepeatMode with
      | some (some "unlimited") => put { r with count := some none, until_ := some none }
      | some (some "count") => put { r with until_ := some none }
      | some (some "until") => put { r with count := some none }
      | _ => .ok e

/-- The normalization as the claim describes it (spec section 4.2):
`unlimited` forces both `count` and `until` to null, `count` forces `until`
to null leaving `count` as provided, `until` forces `count` to null leaving
`until` as provided, anything else passes through unchanged. -/
def normalizeRuleSpec (r : RecurringRule) : RecurringRule :=
  if r.endRepeatMode = some (some "unlimited") then
    { r with count := some none, until_ := some none }
  else if r.endRepeatMode = some (some "count") then
    { r with until_ := some none }
  else if r.endRepeatMode = some (some "until") then
    { r with count := some none }
  else r

/-! ## The recurrence date generator (lines 543-601)

`generate_recurring_dates` parses the rule dict eagerly and hands the result
to the external `dateutil.rrule`.  The parsing below is translated from the
source; the enumeration itself is modelled from the spec (section 4.1), see
the module header. -/

/-- The `rrule` arguments surviving parsing. -/
structure RuleArgs where
  freq : Frequency
  interval : Nat
  byweekday : Option Byweekday
  count : Option Nat
  until_ : Option Int
  deriving DecidableEq, Repr

/-- Parsing of a `recurring_rule` dict into `rrule` arguments, with the
failure modes of the `generate_recurring_dates(**rule)` call: keys not in
the signature (`bymonth`, `byhour`, `byminute`) raise a `TypeError`, a
missing/unknown/null frequency makes `rrule(FREQUENCIES.get(f), ...)` raise,
a null interval breaks the rrule arithmetic, and a non-positive interval is
rejected by the rrule constructor ("interval ≥ 1" per the spec). -/
def parseRuleArgs (r : RecurringRule) : Except Err RuleArgs := do
  if r.bymonth.isSome || r.byhour.isSome || r.byminute.isSome then
    throw .typeError
  let freq ← match r.frequency with
    | some (some f) =>
      match frequencyCode f with
      | some fr => pure fr
      | none => throw Err.typeError
    | _ => throw Err.typeError
  let bw ← parseByday r.byday.join
  let interval ← match r.interval with
    | none => pure 1
    | some none => throw Err.typeError
    | some (some i) => if i = 0 then throw Err.valueError else pure i
  pure { freq := freq, interval := interval, byweekday := bw,
         count := r.count.join, until_ := r.until_.join }

/-- Weekday number of an absolute model day (day 0 is a Monday). -/
def wkdOf (dday : Int) : Int := dday % 7

def weekdayNum : Weekday → Int
  | .mo => 0 | .tu => 1 | .we => 2 | .th => 3 | .fr => 4 | .sa => 5 | .su => 6

/-- Model month of an absolute day (30-day months, see module header). -/
def monthIdx (dday : Int) : Int := dday / 30

def dayOfMonth (dday : Int) : Int := dday % 30

/-- Model year of an absolute day (360-day years). -/
def yearIdx (dday : Int) : Int := dday / 360

def dayOfYear (dday : Int) : Int := dday % 360

/-- Day offsets (0-29) inside month `m` that fall on weekday `w`. -/
def monthWeekdayOffsets (m : Int) (w : Weekday) : List Nat :=
  (List.range 30).filter fun j => wkdOf (30 * m + (j : Int)) == weekdayNum w

/-- `MO(n)`-style test for monthly rules: `dday` is the `n`-th (`n`-th from
the end when negative) day of its month falling on weekday `w`. -/
def isNthWeekdayOfMonth (w : Weekday) (n : Int) (dday : Int) : Bool :=
  let offs := monthWeekdayOffsets (monthIdx dday) w
  if 0 < n then offs.get? (n - 1).toNat == some (dayOfMonth dday).toNat
  else if n < 0 then offs.reverse.get? (-n - 1).toNat == some (dayOfMonth dday).toNat
  else false

/-- Day offsets (0-359) inside year `y` that fall on weekday `w`. -/
def yearWeekdayOffsets (y : Int) (w : Weekday) : List Nat :=
  (List.range 360).filter fun j => wkdOf (360 * y + (j : Int)) == weekdayNum w

/-- `MO(n)`-style test for yearly rules. -/
def isNthWeekdayOfYear (w : Weekday) (n : Int) (dday : Int) : Bool :=
  let offs := yearWeekdayOffsets (yearIdx dday) w
  if 0 < n then offs.get? (n - 1).toNat == some (dayOfYear dday).toNat
  else if n < 0 then offs.reverse.get? (-n - 1).toNat == some (dayOfYear dday).toNat
  else false

def weekdayMem (ws : List Weekday) (dday : Int) : Bool :=
  ws.any fun w => weekdayNum w == wkdOf dday

def dvdBy (i : Nat) (x : Int) : Bool := x % (i : Int) == 0

/-- Whether day offset `d` from the seed day `sDay` is an occurrence of the
rule: the offset lies on the period grid anchored at the seed and passes the
weekday/day-of-period filter.  The ordinal of an ordinal `byweekday` is
ignored for daily/weekly frequencies, as `dateutil` does. -/
def dayMatches (a : RuleArgs) (sDay : Int) (d : Nat) : Bool :=
  let D : Int := sDay + (d : Int)
  match a.freq with
  | .daily =>
    dvdBy a.interval (d : Int) &&
    (match a.byweekday with
     | none => true
     | some (.ordinal w _) => wkdOf D == weekdayNum w
     | some (.plain ws) => weekdayMem ws D)
  | .weekly =>
    dvdBy a.interval (D / 7 - sDay / 7) &&
    (match a.byweekday with
     | none => wkdOf D == wkdOf sDay
     | some (.ordinal w _) => wkdOf D == weekdayNum w
     | some (.plain ws) => weekdayMem ws D)
  | .monthly =>
    dvdBy a.interval (monthIdx D - monthIdx sDay) &&
    (match a.byweekday with
     | none => dayOfMonth D == dayOfMonth sDay
     | some (.ordinal w n) => isNthWeekdayOfMonth w n D
     | some (.plain ws) => weekdayMem ws D)
  | .yearly =>
    dvdBy a.interval (yearIdx D - yearIdx sDay) &&
    (match a.byweekday with
     | none => dayOfYear D == dayOfYear sDay
     | some (.ordinal w n) => isNthWeekdayOfYear w n D
     | some (.plain ws) => weekdayMem ws D)

/-- Days spanned by one period of the rule. -/
def periodDays (a : RuleArgs) : Nat :=
  a.interval * (match a.freq with
    | .daily => 1 | .weekly => 7 | .monthly => 30 | .yearly => 360)

/-- The enumeration window, in days: 1400 periods always suffice to contain
the first 200 occurrences when any occurrence exists (`occDays_length_ge`
below). -/
def window (a : RuleArgs) : Nat := 1400 * periodDays a

/-- Matching day offsets inside the window, ascending. -/
def occDays (a : RuleArgs) (sDay : Int) : List Nat :=
  (List.range (window a)).filter (dayMatches a sDay)

def applyUntil (u : Option Int) (l : List Int) : List Int :=
  match u with
  | none => l
  | some b => l.filter fun t => t ≤ b

def applyCount (c : Option Nat) (l : List Int) : List Int :=
  match c with
  | none => l
  | some n => l.take n

/-- The occurrence instants of the rule seeded at `start` (minutes):
matching days carry the seed's time of day, occurrences after `until` are
dropped, and `count` keeps the first `count` occurrences. -/
def occList (a : RuleArgs) (start : Int) : List Int :=
  let sDay := start / 1440
  let tod := start % 1440
  applyCount a.count (applyUntil a.until_
    ((occDays a sDay).map fun (d : Nat) => (sDay + (d : Int)) * 1440 + tod))

/-- `generate_recurring_dates` (lines 543-601).  The timezone conversions of
the source round-trip through the external `pytz` and are modelled as the
identity (module header); `tz` is therefore unused. -/
def generate_recurring_dates (start : Int) (tz : Option (Option String))
    (r : RecurringRule) : Except Err (List Int) :=
  (parseRuleArgs r).map fun a => occList a start

/-- `itertools.islice(generate_recurring_dates(...), 0, 200)` as both call
sites (lines 98-102 and 209-213) materialize it. -/
def materializeDates (start : Int) (tz : Option (Option String))
    (r : RecurringRule) : Except Err (List Int) :=
  (generate_recurring_dates start tz r).map (List.take 200)

/-! ## `on_create` (lines 76-120) -/

/-- `generate_guid` (external): a fresh-identifier supply threaded as a
counter; identifiers of distinct indices are distinct. -/
def gensym (n : Nat) : String := String.mk ('g' :: List.replicate n 'i')

/-- Modelled from the spec: `set_original_creator` (external,
`apps.archive.common`) "sets the author" — it writes the acting user's id
into `original_creator`. -/
def set_original_creator (user : Option String) (e : Doc) : Doc :=
  match user with
  | some u => { e with original_creator := some u }
  | none => e

/-- `overwrite_event_expiry_date` (lines 615-617): when the `expiry` key is
present, overwrite it with `dates.end` (a KeyError when `dates`/`end` are
absent). -/
def overwrite_event_expiry_date (e : Doc) : Except Err Doc :=
  if e.expiry.isSome then
    match e.dates with
    | none => .error .keyError
    | some dd =>
      match dd.end_ with
      | none => .error .keyError
      | some v => .ok { e with expiry := some (some v) }
  else .ok e

/-- Python `list.remove`: drop the first element equal to `e`. -/
def removeFirst (l : List Doc) (e : Doc) : List Doc :=
  match l with
  | [] => []
  | x :: xs => if x = e then xs else x :: removeFirst xs e

/-- The generation loop of lines 103-116: one sibling per date, carrying the
(already normalized) source event, fresh guid/_id, the shared series id, the
preserved duration, and a refreshed expiry. -/
def expandEvent (e5 : Doc) (dd : EventDates) (rid : String) (delta : Int) :
    List Int → Nat → List Doc × Nat
  | [], g => ([], g)
  | date :: rest, g =>
    let ne : Doc := { e5 with
      dates := some { dd with start := some date, end_ := some (date + delta) },
      guid := some (gensym g),
      id := some (gensym g),
      recurrence_id := some (some rid),
      expiry := if e5.expiry.isSome then some (some (date + delta)) else e5.expiry }
    let rec_ := expandEvent e5 dd rid delta rest (g + 1)
    (ne :: rec_.1, rec_.2)

/-- Result of `on_create`: the `docs` list as left behind (also on the error
path — Python mutates it in place), and the advanced id supply. -/
structure CRes where
  err : Option Err := none
  docs : List Doc := []
  gen : Nat := 0
  deriving DecidableEq, Repr

theorem removeFirst_length_le (l : List Doc) (e : Doc) :
    (removeFirst l e).length ≤ l.length := by
  induction l with
  | nil => simp [removeFirst]
  | cons x xs ih =>
    simp only [removeFirst]
    split
    · simp
    · simpa using Nat.succ_le_succ ih

/-- The `for event in docs` loop of `on_create` (lines 79-118), with
Python's iteration semantics made explicit: an index cursor that is bumped
every round while `docs.remove(event)` shrinks the list, so the document
after a removed one is never visited.  The loop runs for at most the initial
length of the list (the cursor advances every round and the list never
grows), so that many rounds of fuel make the fuel bound unreachable. -/
def onCreateLoop (user : Option String) :
    Nat → List Doc → Nat → Nat → List Doc → CRes
  | 0, docs, _, g, acc => { err := none, docs := docs ++ acc, gen := g }
  | fuel + 1, docs, i, g, acc =>
    if h : i < docs.length then
      let e := docs.get ⟨i, h⟩
      -- lines 81-83: guid/_id assignment
      let p1 : Doc × Nat :=
        match e.guid with
        | none => ({ e with guid := some (gensym g) }, g + 1)
        | some _ => (e, g)
      let e2 := { p1.1 with id := p1.1.guid }
      let e3 := set_original_creator user e2
      match overwrite_event_expiry_date e3 with
      | .error err => { err := some err, docs := docs.set i e3, gen := p1.2 }
      | .ok e4 =>
        match e4.truthyRule, e4.dates with
        | some r, some dd =>
          -- line 93: setRecurringMode(event) mutates the rule in place
          let r5 := setRecurringModeRule r
          let dd5 := { dd with recurring_rule := some (some r5) }
          let e5 := { e4 with dates := some dd5 }
          let docs5 := docs.set i e5
          -- line 94: the shared series id
          let rid := gensym p1.2
          let g2 := p1.2 + 1
          -- line 96: time_delta = dates.end - dates.start
          match dd5.start, dd5.end_ with
          | some st, some en =>
            match materializeDates st dd5.tz r5 with
            | .error err => { err := some err, docs := docs5, gen := g2 }
            | .ok dates =>
              let pg := expandEvent e5 dd5 rid (en - st) dates g2
              onCreateLoop user fuel (removeFirst docs5 e5) (i + 1) pg.2 (acc ++ pg.1)
          | _, _ => { err := some .keyError, docs := docs5, gen := g2 }
        | _, _ => onCreateLoop user fuel (docs.set i e4) (i + 1) p1.2 acc
    else
      { err := none, docs := docs ++ acc, gen := g }

/-- `on_create` (lines 76-120). -/
def on_create (user : Option String) (docs : List Doc) (g : Nat) : CRes :=
  onCreateLoop user docs.length docs 0 g []

/-- `post_in_mongo` (lines 51-58) restricted to its persistence behaviour:
the `on_create` hook runs before anything is written, so when it raises the
store is untouched. -/
def post_in_mongo (store : List Doc) (user : Option String) (docs : List Doc)
    (g : Nat) : List Doc × Option Err :=
  let res := on_create user docs g
  match res.err with
  | some e => (store, some e)
  | none => (store ++ res.docs, none)

/-! ## `on_update` (lines 151-256) -/

/-- Side effects issued by one `on_update` run, in order per collaborator:
spiked ids, deleted ids (with the history copies), nested patches, the batch
of created events, and pushed notifications. -/
structure UEff where
  spiked : List String := []
  deleted : List String := []
  histDeleted : List Doc := []
  patched : List (String × Doc) := []
  created : List Doc := []
  notifs : List Notif := []
  deriving DecidableEq, Repr

/-- Result of `on_update`: the `updates` dict as left behind (mutated in
place by the source), the effects issued before returning or raising, the
raised exception if any, and the advanced id supply. -/
structure URes where
  updates : Doc := {}
  eff : UEff := {}
  err : Option Err := none
  gen : Nat := 0
  deriving DecidableEq, Repr

/-- The sibling query of lines 174-181: same `recurrence_id` value
(a null query value matches null and missing fields, as in Mongo), `_id`
different from the original's, `dates.start` strictly greater. -/
def spikeQuery (rid : Option String) (oid : String) (ostart : Int)
    (e : Doc) : Bool :=
  (match rid with
   | some rv => e.recurrence_id == some (some rv)
   | none => e.recurrence_id == none || e.recurrence_id == some none) &&
  e.id != some oid &&
  (match e.dates with
   | some dd =>
     match dd.start with
     | some t => ostart < t
     | none => false
   | none => false)

/-- The spike loop of lines 183-185: `spike_service.patch(event['_id'], {})`
for each match; a document without `_id` raises mid-loop, the earlier spikes
having already happened. -/
def spikeAll (es : List Doc) : Except (Err × List String) (List String) :=
  match es with
  | [] => .ok []
  | e :: rest =>
    match e.id with
    | none => .error (.keyError, [])
    | some i =>
      match spikeAll rest with
      | .ok l => .ok (i :: l)
      | .error q => .error (q.1, i :: q.2)

/-- The `recurrence_id` equality query of line 200. -/
def ridQuery (rid : String) (e : Doc) : Bool :=
  e.recurrence_id == some (some rid)

/-- The comprehension of lines 201-204: keep the siblings whose
`dates.start` is at least the original's, raising on a missing key. -/
def filterStartGe (ostart : Int) : List Doc → Except Err (List Doc)
  | [] => .ok []
  | e :: rest =>
    match e.dates with
    | none => .error .keyError
    | some dd =>
      match dd.start with
      | none => .error .keyError
      | some t =>
        (filterStartGe ostart rest).map fun l =>
          if ostart ≤ t then e :: l else l

/-- `itertools.zip_longest`. -/
def zipLongest {α β : Type} : List α → List β → List (Option α × Option β)
  | [], bs => bs.map fun b => (none, some b)
  | a :: as_, [] => (some a, none) :: zipLongest as_ []
  | a :: as_, b :: bs => (some a, some b) :: zipLongest as_ bs

/-- `new_event.update(new_updates)`: Python's shallow top-level dict merge —
a key present in the updates replaces the original's whole value. -/
def mergeDoc (o u : Doc) : Doc :=
  { guid := u.guid <|> o.guid,
    id := u.id <|> o.id,
    recurrence_id := u.recurrence_id <|> o.recurrence_id,
    original_creator := u.original_creator <|> o.original_creator,
    version_creator := u.version_creator <|> o.version_creator,
    expiry := u.expiry <|> o.expiry,
    dates := u.dates <|> o.dates,
    name := u.name <|> o.name,
    skip_on_update := u.skip_on_update || o.skip_on_update }

/-- State threaded through the reconciliation loop: the (mutated) updates
dict, the effects collected so far, the pending `addEvents` batch and the id
supply. -/
structure LoopSt where
  u : Doc
  deleted : List String := []
  histDeleted : List Doc := []
  patched : List (String × Doc) := []
  addEvents : List Doc := []
  gen : Nat := 0
  deriving DecidableEq, Repr

/-- One round of the `zip_longest` loop of lines 215-244. -/
def reconcileStep (original : Doc) (delta : Int) (st : LoopSt) :
    Option Doc × Option Int → Except (Err × LoopSt) LoopSt
  | (some ev, none) =>
    -- lines 216-219: the target date is exhausted, delete the leftover
    match ev.id with
    | none => .error (.keyError, st)
    | some evid =>
      .ok { st with deleted := st.deleted ++ [evid],
                    histDeleted := st.histDeleted ++ [ev] }
  | (none, some date) =>
    -- lines 220-231: no sibling left, collect a new occurrence
    let ne0 := mergeDoc original st.u
    match ne0.dates with
    | none => .error (.keyError, st)
    | some dd =>
      let ne := { ne0 with
        dates := some { dd with start := some date, end_ := some (date + delta) },
        guid := some (gensym st.gen),
        id := some (gensym st.gen) }
      .ok { st with addEvents := st.addEvents ++ [ne], gen := st.gen + 1 }
  | (some ev, some date) =>
    match ev.id, original.id with
    | some evid, some oid =>
      if evid = oid then
        -- lines 232-234: the edited occurrence keeps its aligned dates
        match st.u.dates with
        | none => .error (.keyError, st)
        | some dd =>
          .ok { st with u := { st.u with
            dates := some { dd with start := some date, end_ := some (date + delta) } } }
      else
        -- lines 235-244: nested sibling edit, re-entrancy flag set
        match st.u.dates with
        | none => .error (.keyError, st)
        | some dd =>
          let nu : Doc := { st.u with
            guid := none,
            dates := some { dd with start := some date, end_ := some (date + delta) },
            skip_on_update := true }
          .ok { st with patched := st.patched ++ [(evid, nu)] }
    | _, _ => .error (.keyError, st)
  | (none, none) => .ok st

def reconcileFold (original : Doc) (delta : Int) :
    List (Option Doc × Option Int) → LoopSt → Except (Err × LoopSt) LoopSt
  | [], st => .ok st
  | p :: rest, st =>
    match reconcileStep original delta st p with
    | .error q => .error q
    | .ok st' => reconcileFold original delta rest st'

/-- Lines 157-165: set the version creator and insert an empty `dates` dict
into the updates when absent. -/
def prepUpdates (user : Option String) (updates : Doc) : Doc :=
  let u1 :=
    match user with
    | some uid => { updates with version_creator := some uid }
    | none => updates
  match u1.dates with
  | none => { u1 with dates := some {} }
  | some _ => u1

/-- Lines 168-170: the updates become non-recurring — null rule, null
series id. -/
def clearRule (u2 : Doc) : Doc :=
  let dd := u2.dates.getD {}
  { u2 with
    dates := some { dd with recurring_rule := some none },
    recurrence_id := some none }

/-- Branch A of `on_update` (lines 167-191), applied to the prepared
updates `u2`. -/
def branchA (db : List Doc) (g : Nat) (u2 original : Doc) : URes :=
  let u3 := clearRule u2
  match original.recurrence_id with
  | some origRid =>
    match original.dates with
    | none => { updates := u3, eff := {}, err := some .keyError, gen := g }
    | some odd =>
      match odd.start with
      | none => { updates := u3, eff := {}, err := some .keyError, gen := g }
      | some ostart =>
        match original.id with
        | none => { updates := u3, eff := {}, err := some .keyError, gen := g }
        | some oid =>
          match spikeAll (db.filter (spikeQuery origRid oid ostart)) with
          | .error q =>
            { updates := u3, eff := { spiked := q.2 }, err := some q.1, gen := g }
          | .ok ids =>
            { updates := u3,
              eff := { spiked := ids,
                       notifs := [.updated oid (u3.version_creator.getD "")] },
              err := none, gen := g }
  | none =>
    match original.id with
    | none => { updates := u3, eff := {}, err := some .keyError, gen := g }
    | some oid =>
      { updates := u3,
        eff := { notifs := [.updated oid (u3.version_creator.getD "")] },
        err := none, gen := g }

/-- Lines 197-204: the comparison set — the original alone when it was not
recurring, otherwise every stored sibling of the series whose start is at
least the original's. -/
def computeExisting (db : List Doc) (original : Doc) (odd : EventDates)
    (rid : String) : Except Err (List Doc) :=
  match odd.recurring_rule with
  | some (some orr) =>
    if orr.truthy then
      match odd.start with
      | none => .error .keyError
      | some ostart => filterStartGe ostart (db.filter (ridQuery rid))
    else .ok [original]
  | _ => .ok [original]

/-- Lines 197-256: the tail of branch B once the updates have been
normalized (`u4`, rule `r5`, dates dict `dd5`) and the series id `rid`
fixed. -/
def runReconcile (db : List Doc) (g1 : Nat) (u4 original : Doc)
    (rid : String) (r5 : RecurringRule) (dd5 : EventDates) : URes :=
  match original.dates with
  | none => { updates := u4, eff := {}, err := some .keyError, gen := g1 }
  | some odd =>
    match computeExisting db original odd rid with
    | .error err => { updates := u4, eff := {}, err := some err, gen := g1 }
    | .ok existing =>
      -- line 206: time_delta
      match dd5.start, dd5.end_ with
      | some ust, some uen =>
        let delta := uen - ust
        -- lines 209-213
        match materializeDates ust dd5.tz r5 with
        | .error err => { updates := u4, eff := {}, err := some err, gen := g1 }
        | .ok dates =>
          match reconcileFold original delta (zipLongest existing dates)
              { u := u4, gen := g1 } with
          | .error q =>
            -- the loop raised: the batched addEvents were never created
            { updates := q.2.u,
              eff := { deleted := q.2.deleted, histDeleted := q.2.histDeleted,
                       patched := q.2.patched, created := [] },
              err := some q.1, gen := q.2.gen }
          | .ok st =>
            match original.id with
            | none =>
              -- line 253 raises after the batch create already happened
              { updates := st.u,
                eff := { deleted := st.deleted, histDeleted := st.histDeleted,
                         patched := st.patched, created := st.addEvents },
                err := some .keyError, gen := st.gen }
            | some oid =>
              { updates := st.u,
                eff := { deleted := st.deleted, histDeleted := st.histDeleted,
                         patched := st.patched, created := st.addEvents,
                         notifs := [.updatedRecurring oid rid
                           (st.u.version_creator.getD "")] },
                err := none, gen := st.gen }
      | _, _ => { updates := u4, eff := {}, err := some .keyError, gen := g1 }

/-- Lines 193-195: the normalized updates of branch B — the rule dict `r`
rewritten by `setRecurringMode` and the series id installed. -/
def normUpdates (u2 : Doc) (r : RecurringRule) (rid : String) : Doc :=
  let dd := u2.dates.getD {}
  { u2 with
    dates := some { dd with recurring_rule := some (some (setRecurringModeRule r)) },
    recurrence_id := some (some rid) }

/-- Line 195: reuse the original's series id when truthy, else mint a fresh
one, advancing the id supply. -/
def pickRid (original : Doc) (g : Nat) : String × Nat :=
  match original.recurrence_id with
  | some (some s) => if s = "" then (gensym g, g + 1) else (s, g)
  | _ => (gensym g, g + 1)

/-- Branch B of `on_update` (lines 193-256), applied to the prepared
updates `u2` whose rule dict is the non-empty `r`. -/
def branchB (db : List Doc) (g : Nat) (u2 original : Doc) (r : RecurringRule) :
    URes :=
  let pRid := pickRid original g
  let u4 := normUpdates u2 r pRid.1
  runReconcile db pRid.2 u4 original pRid.1 (setRecurringModeRule r)
    { u2.dates.getD {} with recurring_rule := some (some (setRecurringModeRule r)) }

/-- `on_update` (lines 151-256). -/
def on_update (db : List Doc) (user : Option String) (g : Nat)
    (updates original : Doc) : URes :=
  -- lines 152-155: the re-entrancy guard deletes the flag and returns
  if updates.skip_on_update then
    { updates := { updates with skip_on_update := false }, eff := {},
      err := none, gen := g }
  else
    let u2 := prepUpdates user updates
    match u2.truthyRule with
    | none => branchA db g u2 original
    | some r => branchB db g u2 original r

/-! ## Helper lemmas -/

theorem regexMatch15_cons (c : Char) (rest : List Char) :
    regexMatch15 (c :: rest) =
      if c = '-' then
        (match rest with | [] => false | c2 :: _ => digit15 c2)
      else digit15 c := by
  by_cases hc : c = '-'
  · subst hc
    cases rest with
    | nil => simp [regexMatch15]; decide
    | cons c2 r2 => simp [regexMatch15]
  · cases rest with
    | nil => simp [regexMatch15, hc]
    | cons c2 r2 => simp [regexMatch15, hc]

/-- `prepUpdates` does not change whether the updates carry a truthy rule. -/
theorem prepUpdates_truthyRule (user : Option String) (updates : Doc) :
    (prepUpdates user updates).truthyRule = updates.truthyRule := by
  unfold prepUpdates
  cases user <;> cases hud : updates.dates <;> simp [Doc.truthyRule, hud]

/-- After preparation the updates always carry a `dates` dict, namely the
submitted one or a fresh empty one. -/
theorem prepUpdates_dates (user : Option String) (updates : Doc) :
    (prepUpdates user updates).dates = some (updates.dates.getD {}) := by
  unfold prepUpdates
  cases user <;> cases hud : updates.dates <;> simp [hud]

theorem prepUpdates_skip (user : Option String) (updates : Doc) :
    (prepUpdates user updates).skip_on_update = updates.skip_on_update := by
  unfold prepUpdates
  cases user <;> cases hud : updates.dates <;> simp [hud]

theorem prepUpdates_version_creator (user : Option String) (updates : Doc) :
    (prepUpdates user updates).version_creator =
      (user <|> updates.version_creator) := by
  unfold prepUpdates
  cases user <;> cases hud : updates.dates <;> simp [hud, Option.orElse]

/-- Without the re-entrancy flag and without a truthy rule, `on_update`
runs branch A on the prepared updates. -/
theorem on_update_eq_branchA (db : List Doc) (user : Option String) (g : Nat)
    (updates original : Doc)
    (hskip : updates.skip_on_update = false)
    (hnorule : updates.truthyRule = none) :
    on_update db user g updates original =
      branchA db g (prepUpdates user updates) original := by
  unfold on_update
  rw [hskip]
  have h2 := (prepUpdates_truthyRule user updates).trans hnorule
  simp only [Bool.false_eq_true, if_false, h2]

/-- Without the re-entrancy flag and with a truthy rule, `on_update` runs
branch B on the prepared updates. -/
theorem on_update_eq_branchB (db : List Doc) (user : Option String) (g : Nat)
    (updates original : Doc) (r : RecurringRule)
    (hskip : updates.skip_on_update = false)
    (hrule : updates.truthyRule = some r) :
    on_update db user g updates original =
      branchB db g (prepUpdates user updates) original r := by
  unfold on_update
  rw [hskip]
  have h2 := (prepUpdates_truthyRule user updates).trans hrule
  simp only [Bool.false_eq_true, if_false, h2]

/-- Branch A for an original that is not part of a series: only the
notification is emitted. -/
theorem branchA_no_series (db : List Doc) (g : Nat) (u2 original : Doc)
    (oid : String)
    (hrid : original.recurrence_id = none) (hoid : original.id = some oid) :
    branchA db g u2 original =
      { updates := clearRule u2,
        eff := { notifs := [.updated oid ((clearRule u2).version_creator.getD "")] },
        err := none, gen := g } := by
  unfold branchA
  simp only [hrid, hoid]

theorem clearRule_version_creator (u2 : Doc) :
    (clearRule u2).version_creator = u2.version_creator := rfl

theorem clearRule_dates (u2 : Doc) :
    (clearRule u2).dates =
      some { u2.dates.getD {} with recurring_rule := some none } := rfl

theorem clearRule_recurrence_id (u2 : Doc) :
    (clearRule u2).recurrence_id = some none := rfl

/-- Branch A never deletes, patches or creates. -/
theorem branchA_eff_writes (db : List Doc) (g : Nat) (u2 original : Doc) :
    (branchA db g u2 original).eff.patched = [] ∧
    (branchA db g u2 original).eff.deleted = [] ∧
    (branchA db g u2 original).eff.created = [] ∧
    (branchA db g u2 original).eff.histDeleted = [] := by
  unfold branchA
  repeat' split
  all_goals simp

/-- The loop state on either exit of the reconciliation loop. -/
def stOfRes (x : Except (Err × LoopSt) LoopSt) : LoopSt :=
  match x with
  | .ok st => st
  | .error q => q.2

theorem reconcileStep_patched_flag (original : Doc) (delta : Int)
    (st : LoopSt) (p : Option Doc × Option Int)
    (hst : ∀ q ∈ st.patched, q.2.skip_on_update = true) :
    ∀ q ∈ (stOfRes (reconcileStep original delta st p)).patched,
      q.2.skip_on_update = true := by
  rcases p with ⟨oe, od⟩
  cases oe <;> cases od <;> simp only [reconcileStep]
  all_goals repeat' split
  all_goals simp only [stOfRes]
  all_goals intro q hq
  all_goals try dsimp only at hq ⊢
  all_goals first
    | exact hst q hq
    | (simp only [List.mem_append, List.mem_singleton] at hq
       rcases hq with h | h
       · exact hst q h
       · subst h
         rfl)

theorem reconcileFold_patched_flag (original : Doc) (delta : Int)
    (ps : List (Option Doc × Option Int)) (st : LoopSt)
    (hst : ∀ q ∈ st.patched, q.2.skip_on_update = true) :
    ∀ q ∈ (stOfRes (reconcileFold original delta ps st)).patched,
      q.2.skip_on_update = true := by
  induction ps generalizing st with
  | nil => exact hst
  | cons p rest ih =>
    unfold reconcileFold
    cases hstep : reconcileStep original delta st p with
    | error q =>
      have hflag := reconcileStep_patched_flag original delta st p hst
      rw [hstep] at hflag
      exact hflag
    | ok st' =>
      have hflag := reconcileStep_patched_flag original delta st p hst
      rw [hstep] at hflag
      exact ih st' hflag

theorem reconcileFold_patched_flag_nil (original : Doc) (delta : Int)
    (ps : List (Option Doc × Option Int)) (u : Doc) (gn : Nat) :
    ∀ q ∈ (stOfRes (reconcileFold original delta ps { u := u, gen := gn })).patched,
      q.2.skip_on_update = true :=
  reconcileFold_patched_flag original delta ps { u := u, gen := gn }
    (fun x hx => absurd hx (List.not_mem_nil x))

theorem runReconcile_patched_flag (db : List Doc) (g1 : Nat)
    (u4 original : Doc) (rid : String) (r5 : RecurringRule)
    (dd5 : EventDates) :
    ∀ q ∈ (runReconcile db g1 u4 original rid r5 dd5).eff.patched,
      q.2.skip_on_update = true := by
  intro q hq
  unfold runReconcile at hq
  rcases hod : original.dates with _ | odd <;> simp only [hod] at hq
  · simp at hq
  rcases hex : computeExisting db original odd rid with err | existing <;>
    simp only [hex] at hq
  · simp at hq
  rcases hs : dd5.start with _ | ust <;> simp only [hs] at hq
  · simp at hq
  rcases he : dd5.end_ with _ | uen <;> simp only [he] at hq
  · simp at hq
  rcases hm : materializeDates ust dd5.tz r5 with err | dates <;>
    simp only [hm] at hq
  · simp at hq
  rcases hf : reconcileFold original (uen - ust) (zipLongest existing dates)
      { u := u4, gen := g1 } with q' | st <;> simp only [hf] at hq
  · have hfl := reconcileFold_patched_flag_nil original (uen - ust)
      (zipLongest existing dates) u4 g1
    rw [hf] at hfl
    exact hfl q (by simpa using hq)
  · have hfl := reconcileFold_patched_flag_nil original (uen - ust)
      (zipLongest existing dates) u4 g1
    rw [hf] at hfl
    rcases hoid : original.id with _ | oid <;> simp only [hoid] at hq
    · exact hfl q (by simpa using hq)
    · exact hfl q (by simpa using hq)

theorem branchB_patched_flag (db : List Doc) (g : Nat) (u2 original : Doc)
    (r : RecurringRule) :
    ∀ q ∈ (branchB db g u2 original r).eff.patched,
      q.2.skip_on_update = true := by
  intro q hq
  unfold branchB at hq
  exact runReconcile_patched_flag db _ _ original _ _ _ q hq

/-! ## Claim C5 -/

/-- C5 counterexample: on `byday = "3"` the code's dispatch regex matches
(so the generator commits to the ordinal interpretation, failing with a
`TypeError` at `DAYS.get('')(3)`) although the claim's ordinal form does not
hold — the claim instead promises the space-separated-list treatment, whose
observable behaviour is different. -/
theorem c5_counterexample :
    regexMatch15 "3".data = true ∧ specOrdinalForm "3".data = false ∧
    parseByday (some "3") = .error .typeError ∧
    bydayListBranch "3".data = .error .attributeError := by decide

/-- C5 (amended): a `byday` string is dispatched to the ordinal
interpretation exactly when it begins with an optional sign followed by a
digit `1`-`5` — whatever follows; the ordinal is that leading signed digit,
the weekday code is the entire remainder (a `TypeError` when it is not
exactly a weekday code), and every other non-empty string is treated as a
space-separated list of weekday codes. -/
theorem c5_byday_dispatch_amended (b : Option String) :
    parseByday b = parseBydayAmended b := by
  have core : ∀ cs : List Char, parseBydayCore cs = parseBydayAmendedCore cs := by
    intro cs
    cases cs with
    | nil => rfl
    | cons c rest =>
      unfold parseBydayCore parseBydayAmendedCore
      by_cases hc : c = '-'
      · subst hc
        cases rest with
        | nil =>
          simp only [regexMatch15_cons, List.head?, List.tail, if_pos rfl]
          norm_num
        | cons c2 r2 =>
          simp only [regexMatch15_cons, List.head?, List.tail, if_pos rfl]
          by_cases h5 : digit15 c2
          · simp [h5]
          · simp [h5]
      · cases rest with
        | nil =>
          simp only [regexMatch15_cons, if_neg hc, List.head?, List.tail]
          by_cases h5 : digit15 c
          · simp [h5, hc]
          · simp [h5, hc]
        | cons c2 r2 =>
          simp only [regexMatch15_cons, if_neg hc, List.head?, List.tail]
          by_cases h5 : digit15 c
          · simp [h5, hc]
          · simp [h5, hc]
  cases b with
  | none => rfl
  | some s => exact core s.data

/-! ## Claim C6 -/

/-- C6: `setRecurringMode`, applied to an event whose `recurring_rule` is a
dict, never fails and rewrites the rule exactly as the claim describes:
`unlimited` forces `count` and `until` to null, `count` forces `until` to
null leaving `count` as provided, `until` forces `count` to null leaving
`until` as provided, and any other or missing mode leaves the rule
unchanged. -/
theorem c6_setRecurringMode_normalizes (e : Doc) (dd : EventDates)
    (r : RecurringRule) (hd : e.dates = some dd)
    (hr : dd.recurring_rule = some (some r)) :
    setRecurringMode e =
      .ok { e with dates := some { dd with recurring_rule := some (some (normalizeRuleSpec r)) } } := by
  unfold setRecurringMode normalizeRuleSpec
  simp only [hd, hr]
  split
  · simp_all
  · simp_all
  · simp_all
  · rename_i h1 h2 h3
    simp only [if_neg h1, if_neg h2, if_neg h3]
    cases e; cases dd; simp_all

/-- C6 witness: a concrete `count`-mode rule has its `until` forced to null
and its `count` kept. -/
theorem c6_witness :
    setRecurringMode { dates := some { recurring_rule := some (some
        { endRepeatMode := some (some "count"), count := some (some 5),
          until_ := some (some 99) }) } } =
      .ok { dates := some { recurring_rule := some (some
        { endRepeatMode := some (some "count"), count := some (some 5),
          until_ := some none }) } } := by
  have h := c6_setRecurringMode_normalizes
    { dates := some { recurring_rule := some (some
        { endRepeatMode := some (some "count"), count := some (some 5),
          until_ := some (some 99) }) } }
    { recurring_rule := some (some
        { endRepeatMode := some (some "count"), count := some (some 5),
          until_ := some (some 99) }) }
    { endRepeatMode := some (some "count"), count := some (some 5),
      until_ := some (some 99) } rfl rfl
  simpa [normalizeRuleSpec] using h

/-! ## Claim C4 -/

/-- C4: whatever rule (in particular one with unlimited termination) either
path materializes, the result is the 200-prefix of the generated sequence:
it never holds a 201st instant, and longer sequences are silently truncated
to their first 200 entries.  (The model's enumeration is a total function,
so materialization always terminates.) -/
theorem c4_islice_cap (start : Int) (tz : Option (Option String))
    (r : RecurringRule) (l : List Int)
    (h : materializeDates start tz r = .ok l) :
    l.length ≤ 200 ∧
    ∃ full, generate_recurring_dates start tz r = .ok full ∧ l = full.take 200 := by
  unfold materializeDates at h
  cases hg : generate_recurring_dates start tz r with
  | error e =>
    rw [hg] at h
    exact absurd h (by simp [Except.map])
  | ok full =>
    rw [hg] at h
    simp only [Except.map, Except.ok.injEq] at h
    refine ⟨?_, full, rfl, h.symm⟩
    rw [← h, List.length_take]
    exact inf_le_left

def c4rule : RecurringRule :=
  { frequency := some (some "DAILY"), endRepeatMode := some (some "unlimited") }

set_option maxRecDepth 100000 in
/-- C4 witness: a daily unlimited rule materializes exactly the first 200
instants of its (window-bounded) sequence. -/
theorem c4_islice_cap_witness :
    ∃ l, materializeDates 0 none c4rule = .ok l ∧ l.length ≤ 200 ∧
      ∃ full, generate_recurring_dates 0 none c4rule = .ok full ∧
        l = full.take 200 := by
  have h : materializeDates 0 none c4rule =
      .ok ((List.range 200).map fun d => Int.ofNat d * 1440) := by decide
  exact ⟨_, h, c4_islice_cap 0 none c4rule _ h⟩

/-! ## Claim C8 -/

/-- C8: nested sibling edits are always flagged with the sentinel, and a
flagged payload makes `on_update` return before doing anything — no rule
normalization (the updates are returned with only the flag removed), no
sibling lookup or date generation, no deletion, creation, spiking, patching
or notification. -/
theorem c8_reentrancy_guard (db : List Doc) (user : Option String)
    (g : Nat) (updates original : Doc) :
    (∀ q ∈ (on_update db user g updates original).eff.patched,
        q.2.skip_on_update = true) ∧
    (updates.skip_on_update = true →
      (on_update db user g updates original).eff = {} ∧
      (on_update db user g updates original).err = none ∧
      (on_update db user g updates original).updates =
        { updates with skip_on_update := false }) := by
  constructor
  · by_cases hskip : updates.skip_on_update = true
    · intro q hq
      unfold on_update at hq
      rw [hskip] at hq
      simp at hq
    · have hskip' : updates.skip_on_update = false := by
        simpa using hskip
      cases hrule : updates.truthyRule with
      | none =>
        rw [on_update_eq_branchA db user g updates original hskip' hrule]
        intro q hq
        rw [(branchA_eff_writes db g (prepUpdates user updates) original).1] at hq
        simp at hq
      | some r =>
        rw [on_update_eq_branchB db user g updates original r hskip' hrule]
        exact branchB_patched_flag db g (prepUpdates user updates) original r
  · intro h
    unfold on_update
    rw [h]
    simp

/-- C8 witness: a flagged payload produces no effects, no error, and is
returned with only the flag cleared. -/
theorem c8_reentrancy_guard_witness :
    (on_update [] none 0 { skip_on_update := true } {}).eff = {} ∧
    (on_update [] none 0 { skip_on_update := true } {}).err = none ∧
    (on_update [] none 0 { skip_on_update := true } {}).updates = ({} : Doc) := by
  have h := (c8_reentrancy_guard [] none 0 { skip_on_update := true } {}).2 rfl
  exact ⟨h.1, h.2.1, by rw [h.2.2]⟩

/-! ## Claim C10 -/

/-- C10: an update without a recurrence rule — in particular one with no
`dates` entry at all, for which an empty dates dict is first inserted — has
`dates.recurring_rule = null` and `recurrence_id = null` written into it,
even when the original was never part of a series. -/
theorem c10_rule_cleared_always (db : List Doc) (user : Option String)
    (g : Nat) (updates original : Doc) (oid : String)
    (hskip : updates.skip_on_update = false)
    (hnorule : updates.truthyRule = none)
    (hrid : original.recurrence_id = none)
    (hoid : original.id = some oid) :
    (on_update db user g updates original).err = none ∧
    (∃ dd, (on_update db user g updates original).updates.dates = some dd ∧
      dd.recurring_rule = some none) ∧
    (on_update db user g updates original).updates.recurrence_id = some none ∧
    (updates.dates = none →
      (on_update db user g updates original).updates.dates =
        some { recurring_rule := some none }) := by
  rw [on_update_eq_branchA db user g updates original hskip hnorule,
    branchA_no_series db g _ original oid hrid hoid]
  refine ⟨rfl, ⟨_, clearRule_dates _, rfl⟩, clearRule_recurrence_id _, ?_⟩
  intro hud
  rw [clearRule_dates, prepUpdates_dates, hud]
  rfl

/-- C10 witness: a concrete payload with no `dates` at all against a
non-series original. -/
theorem c10_witness :
    (on_update [] none 0 { name := some "n" } { id := some "a" }).err = none ∧
    (∃ dd, (on_update [] none 0 { name := some "n" } { id := some "a" }).updates.dates = some dd ∧
      dd.recurring_rule = some none) ∧
    (on_update [] none 0 { name := some "n" } { id := some "a" }).updates.recurrence_id = some none ∧
    (({ name := some "n" } : Doc).dates = none →
      (on_update [] none 0 { name := some "n" } { id := some "a" }).updates.dates =
        some { recurring_rule := some none }) :=
  c10_rule_cleared_always [] none 0 { name := some "n" } { id := some "a" } "a"
    rfl rfl rfl rfl

/-! ## Claim C2 -/

/-- When every matched sibling carries an `_id`, the spike loop spikes
exactly their ids, in order. -/
theorem spikeAll_ok (es : List Doc) (h : ∀ e ∈ es, e.id.isSome) :
    spikeAll es = .ok (es.map fun e => e.id.getD "") := by
  induction es with
  | nil => rfl
  | cons e rest ih =>
    obtain ⟨i, hi⟩ := Option.isSome_iff_exists.mp (h e (by simp))
    unfold spikeAll
    rw [hi, ih (fun x hx => h x (by simp [hx]))]
    simp [hi]

/-- The claim's characterization of the events to spike: same series id as
the original, not the original itself, starting strictly after it. -/
def isLaterSibling (rid oid : String) (ostart : Int) (e : Doc) : Bool :=
  e.recurrence_id == some (some rid) && e.id != some oid &&
  (match e.dates.bind EventDates.start with
   | some t => decide (ostart < t)
   | none => false)

/-- The stored query of lines 174-181 agrees with the claim's
characterization whenever the original's series id is non-null. -/
theorem spikeQuery_eq_isLaterSibling (rid oid : String) (ostart : Int)
    (e : Doc) :
    spikeQuery (some rid) oid ostart e = isLaterSibling rid oid ostart e := by
  unfold spikeQuery isLaterSibling
  cases hd : e.dates with
  | none => simp
  | some dd => cases hs : dd.start <;> simp [hs, Option.bind]

/-- Branch A for an original that belongs to a series: the matching
siblings are spiked and the single notification is emitted. -/
theorem branchA_series (db : List Doc) (g : Nat) (u2 original : Doc)
    (rid oid : String) (odd : EventDates) (ostart : Int)
    (hrid : original.recurrence_id = some (some rid))
    (hod : original.dates = some odd) (hos : odd.start = some ostart)
    (hoid : original.id = some oid)
    (hids : ∀ e ∈ db.filter (spikeQuery (some rid) oid ostart), e.id.isSome) :
    branchA db g u2 original =
      { updates := clearRule u2,
        eff := { spiked := (db.filter (spikeQuery (some rid) oid ostart)).map
                   fun e => e.id.getD "",
                 notifs := [.updated oid ((clearRule u2).version_creator.getD "")] },
        err := none, gen := g } := by
  unfold branchA
  simp only [hrid, hod, hos, hoid, spikeAll_ok _ hids]

/-- C2: for an update carrying no recurrence rule against a series member,
exactly the siblings with the same series id, other than the original, whose
start is strictly later are spiked; nothing is deleted, patched or created —
so the original and the not-later siblings are untouched — and one singular
`events:updated` notification is emitted for the original's id. -/
theorem c2_spikes_later_siblings (db : List Doc) (user : Option String)
    (g : Nat) (updates original : Doc) (rid oid : String)
    (odd : EventDates) (ostart : Int)
    (hskip : updates.skip_on_update = false)
    (hnorule : updates.truthyRule = none)
    (hrid : original.recurrence_id = some (some rid))
    (hod : original.dates = some odd) (hos : odd.start = some ostart)
    (hoid : original.id = some oid)
    (hwf : ∀ e ∈ db, e.id.isSome)
    (hnodup : (db.map Doc.id).Nodup) :
    (on_update db user g updates original).err = none ∧
    (on_update db user g updates original).eff.spiked =
      (db.filter (isLaterSibling rid oid ostart)).map (fun e => e.id.getD "") ∧
    (on_update db user g updates original).eff.deleted = [] ∧
    (on_update db user g updates original).eff.patched = [] ∧
    (on_update db user g updates original).eff.created = [] ∧
    (on_update db user g updates original).eff.notifs =
      [.updated oid ((user <|> updates.version_creator).getD "")] ∧
    (∀ e ∈ db, ∀ eid, e.id = some eid →
      (eid ∈ (on_update db user g updates original).eff.spiked ↔
        isLaterSibling rid oid ostart e = true)) := by
  have hfil : db.filter (spikeQuery (some rid) oid ostart) =
      db.filter (isLaterSibling rid oid ostart) := by
    apply List.filter_congr
    intro e _
    exact spikeQuery_eq_isLaterSibling rid oid ostart e
  rw [on_update_eq_branchA db user g updates original hskip hnorule,
    branchA_series db g _ original rid oid odd ostart hrid hod hos hoid
      (fun e he => hwf e (List.mem_of_mem_filter he))]
  refine ⟨rfl, ?_, rfl, rfl, rfl, ?_, ?_⟩
  · dsimp only
    rw [hfil]
  · dsimp only
    rw [clearRule_version_creator, prepUpdates_version_creator]
  · intro e he eid heid
    dsimp only
    rw [hfil]
    constructor
    · intro hmem
      rcases List.mem_map.mp hmem with ⟨e', he', hid⟩
      have he'db := List.mem_of_mem_filter he'
      obtain ⟨i', hi'⟩ := Option.isSome_iff_exists.mp (hwf e' he'db)
      rw [hi'] at hid
      simp at hid
      have : e' = e := by
        apply List.inj_on_of_nodup_map hnodup he'db he
        rw [hi', heid, hid]
      rw [← this]
      exact (List.mem_filter.mp he').2
    · intro hsib
      apply List.mem_map.mpr
      refine ⟨e, List.mem_filter.mpr ⟨he, hsib⟩, ?_⟩
      rw [heid]
      rfl

def c2orig : Doc :=
  { id := some "a", recurrence_id := some (some "R"),
    dates := some { start := some 10, end_ := some 70 } }

def c2db : List Doc :=
  [c2orig,
   { id := some "b", recurrence_id := some (some "R"),
     dates := some { start := some 20, end_ := some 80 } },
   { id := some "c", recurrence_id := some (some "R"),
     dates := some { start := some 5, end_ := some 65 } },
   { id := some "d", recurrence_id := some (some "S"),
     dates := some { start := some 30, end_ := some 90 } }]

/-- C2 witness: in a concrete store only the strictly-later sibling of the
same series is spiked, and the singular notification is emitted. -/
theorem c2_spikes_later_siblings_witness :
    (on_update c2db none 0 {} c2orig).err = none ∧
    (on_update c2db none 0 {} c2orig).eff.spiked = ["b"] ∧
    (on_update c2db none 0 {} c2orig).eff.deleted = [] ∧
    (on_update c2db none 0 {} c2orig).eff.patched = [] ∧
    (on_update c2db none 0 {} c2orig).eff.created = [] ∧
    (on_update c2db none 0 {} c2orig).eff.notifs = [.updated "a" ""] := by
  have h := c2_spikes_later_siblings c2db none 0 {} c2orig "R" "a"
    { start := some 10, end_ := some 70 } 10 rfl rfl rfl rfl rfl rfl
    (by decide) (by decide)
  refine ⟨h.1, ?_, h.2.2.1, h.2.2.2.1, h.2.2.2.2.1, ?_⟩
  · rw [h.2.1]
    decide
  · rw [h.2.2.2.2.2.1]
    rfl

/-! ## Claim C3 -/

/-- The claim's description of the nested patch: the recurrence rule
stripped (absent or null). -/
def ruleStripped (d : Doc) : Bool :=
  match d.dates with
  | some dd => dd.recurring_rule == none || dd.recurring_rule == some none
  | none => true

def c3rule : RecurringRule :=
  { frequency := some (some "DAILY"), endRepeatMode := some (some "count"),
    count := some (some 2) }

def c3orig : Doc :=
  { id := some "a", guid := some "a", recurrence_id := some (some "R"),
    dates := some { start := some 0, end_ := some 60,
                    recurring_rule := some (some c3rule) } }

def c3sib : Doc :=
  { id := some "b", guid := some "b", recurrence_id := some (some "R"),
    dates := some { start := some 1440, end_ := some 1500,
                    recurring_rule := some (some c3rule) } }

def c3upd : Doc :=
  { dates := some { start := some 0, end_ := some 60,
                    recurring_rule := some (some c3rule) } }

set_option maxRecDepth 100000 in
/-- C3 counterexample: reconciling a two-occurrence series with an unchanged
daily rule patches the second sibling with a payload that still carries the
recurrence rule — the rule is not stripped as the claim states. -/
theorem c3_counterexample :
    ¬ ∀ q ∈ (on_update [c3orig, c3sib] none 7 c3upd c3orig).eff.patched,
        ruleStripped q.2 = true := by decide

/-- Pairs produced against an exhausted dates list have no instant. -/
theorem zipLongest_nil_right {α β : Type} (l1 : List α) :
    ∀ p ∈ zipLongest l1 ([] : List β), p.2 = none := by
  induction l1 with
  | nil => intro p hp; simp [zipLongest] at hp
  | cons a as_ ih =>
    intro p hp
    rcases hp with _ | ⟨_, hp⟩
    · rfl
    · exact ih p hp

/-- The target instant of every pair produced by `zip_longest` comes from
the generated dates. -/
theorem zipLongest_snd_mem {α β : Type} (l1 : List α) (l2 : List β) :
    ∀ p ∈ zipLongest l1 l2, ∀ b, p.2 = some b → b ∈ l2 := by
  induction l1 generalizing l2 with
  | nil =>
    intro p hp b hb
    simp only [zipLongest] at hp
    rcases List.mem_map.mp hp with ⟨x, hx, rfl⟩
    simp at hb
    exact hb ▸ hx
  | cons a as_ ih =>
    rename List β => l2
    cases l2 with
    | nil =>
      intro p hp b hb
      rcases hp with _ | ⟨_, hp⟩
      · simp at hb
      · rw [zipLongest_nil_right as_ p hp] at hb
        cases hb
    | cons b0 bs =>
      intro p hp b hb
      rcases hp with _ | ⟨_, hp⟩
      · simp at hb
        simp [hb]
      · have := ih bs p hp b hb
        simp [this]

/-- Shape of every nested patch payload: guid removed, flag set, dates set
to an aligned instant plus the updates-derived duration, everything else —
the recurrence rule included — retained from the updates. -/
def patchShape (dd5 : EventDates) (delta : Int) (dates : List Int)
    (q : String × Doc) : Prop :=
  q.2.guid = none ∧ q.2.skip_on_update = true ∧
  ∃ t, t ∈ dates ∧ q.2.dates =
    some { dd5 with start := some t, end_ := some (t + delta) }

theorem reconcileStep_patch_shape (original : Doc) (delta : Int)
    (dd5 : EventDates) (dates : List Int) (st : LoopSt)
    (p : Option Doc × Option Int)
    (hu : ∃ a b, st.u.dates = some { dd5 with start := a, end_ := b })
    (hp : ∀ q ∈ st.patched, patchShape dd5 delta dates q)
    (hpd : ∀ t, p.2 = some t → t ∈ dates) :
    (∃ a b, (stOfRes (reconcileStep original delta st p)).u.dates =
      some { dd5 with start := a, end_ := b }) ∧
    (∀ q ∈ (stOfRes (reconcileStep original delta st p)).patched,
      patchShape dd5 delta dates q) := by
  obtain ⟨a, b, hab⟩ := hu
  rcases p with ⟨oe, od⟩
  cases oe with
  | none =>
    cases od with
    | none => exact ⟨⟨a, b, hab⟩, hp⟩
    | some date =>
      simp only [reconcileStep]
      rcases hmd : (mergeDoc original st.u).dates with _ | dd <;>
        simp only [hmd, stOfRes]
      · exact ⟨⟨a, b, hab⟩, hp⟩
      · exact ⟨⟨a, b, hab⟩, hp⟩
  | some ev =>
    cases od with
    | none =>
      simp only [reconcileStep]
      rcases hevid : ev.id with _ | evid <;> simp only [stOfRes]
      · exact ⟨⟨a, b, hab⟩, hp⟩
      · exact ⟨⟨a, b, hab⟩, hp⟩
    | some date =>
      simp only [reconcileStep]
      rcases hevid : ev.id with _ | evid <;>
        rcases hoid : original.id with _ | oid <;> simp only [stOfRes]
      · exact ⟨⟨a, b, hab⟩, hp⟩
      · exact ⟨⟨a, b, hab⟩, hp⟩
      · exact ⟨⟨a, b, hab⟩, hp⟩
      by_cases hsame : evid = oid
      · simp only [if_pos hsame, hab]
        refine ⟨⟨some date, some (date + delta), rfl⟩, hp⟩
      · simp only [if_neg hsame, hab]
        refine ⟨⟨a, b, rfl⟩, ?_⟩
        intro q hq
        rcases List.mem_append.mp hq with h | h
        · exact hp q h
        · simp only [List.mem_singleton] at h
          subst h
          exact ⟨rfl, rfl, date, hpd date rfl, rfl⟩

theorem reconcileFold_patch_shape (original : Doc) (delta : Int)
    (dd5 : EventDates) (dates : List Int)
    (ps : List (Option Doc × Option Int)) (st : LoopSt)
    (hu : ∃ a b, st.u.dates = some { dd5 with start := a, end_ := b })
    (hp : ∀ q ∈ st.patched, patchShape dd5 delta dates q)
    (hpd : ∀ p ∈ ps, ∀ t, (p : Option Doc × Option Int).2 = some t → t ∈ dates) :
    ∀ q ∈ (stOfRes (reconcileFold original delta ps st)).patched,
      patchShape dd5 delta dates q := by
  induction ps generalizing st with
  | nil => exact hp
  | cons p rest ih =>
    unfold reconcileFold
    have hstep := reconcileStep_patch_shape original delta dd5 dates st p hu hp
      (fun t ht => hpd p (by simp) t ht)
    cases hs : reconcileStep original delta st p with
    | error q =>
      rw [hs] at hstep
      exact hstep.2
    | ok st' =>
      rw [hs] at hstep
      exact ih st' hstep.1 hstep.2 (fun p' hp' => hpd p' (by simp [hp']))

theorem runReconcile_patch_shape (db : List Doc) (g1 : Nat)
    (u4 original : Doc) (rid : String) (r5 : RecurringRule)
    (dd5 : EventDates) (hu4 : u4.dates = some dd5) :
    ∀ q ∈ (runReconcile db g1 u4 original rid r5 dd5).eff.patched,
      ∃ ust uen dates, dd5.start = some ust ∧ dd5.end_ = some uen ∧
        materializeDates ust dd5.tz r5 = .ok dates ∧
        patchShape dd5 (uen - ust) dates q := by
  intro q hq
  unfold runReconcile at hq
  rcases hod : original.dates with _ | odd <;> simp only [hod] at hq
  · simp at hq
  rcases hex : computeExisting db original odd rid with err | existing <;>
    simp only [hex] at hq
  · simp at hq
  rcases hs : dd5.start with _ | ust <;> simp only [hs] at hq
  · simp at hq
  rcases he : dd5.end_ with _ | uen <;> simp only [he] at hq
  · simp at hq
  rcases hm : materializeDates ust dd5.tz r5 with err | dates <;>
    simp only [hm] at hq
  · simp at hq
  refine ⟨ust, uen, dates, rfl, rfl, hm, ?_⟩
  have hfold := reconcileFold_patch_shape original (uen - ust) dd5 dates
    (zipLongest existing dates) { u := u4, gen := g1 }
    ⟨dd5.start, dd5.end_, by rw [hu4]⟩
    (fun x hx => absurd hx (List.not_mem_nil x))
    (fun p hp t ht => zipLongest_snd_mem existing dates p hp t ht)
  rcases hf : reconcileFold original (uen - ust) (zipLongest existing dates)
      { u := u4, gen := g1 } with q' | st <;> simp only [hf] at hq
  · rw [hf] at hfold
    exact hfold q (by simpa using hq)
  · rw [hf] at hfold
    rcases hoid : original.id with _ | oid <;> simp only [hoid] at hq
    · exact hfold q (by simpa using hq)
    · exact hfold q (by simpa using hq)

/-! ## Claim C7 -/

/-- A rule whose parse fails makes `generate_recurring_dates`, and so the
islice materialization, raise that error at call time. -/
theorem materializeDates_error (s : Int) (tz : Option (Option String))
    (r : RecurringRule) (err : Err) (h : parseRuleArgs r = .error err) :
    materializeDates s tz r = .error err := by
  unfold materializeDates generate_recurring_dates
  rw [h]
  rfl

def c7doc : Doc :=
  { name := some "ev",
    dates := some { start := some 0, end_ := some 60,
                    recurring_rule := some (some { frequency := some (some "FOO") }) } }

set_option maxRecDepth 100000 in
/-- C7 counterexample: a create with an unknown frequency is rejected, but
only after the event record has been mutated in place — its guid/_id have
been assigned — so "no field of any event record is modified" is false. -/
theorem c7_counterexample :
    (on_create none [c7doc] 0).err = some Err.typeError ∧
    ((on_create none [c7doc] 0).docs.map Doc.guid) = [some "g"] ∧
    c7doc.guid = none ∧
    (on_create none [c7doc] 0).docs ≠ [c7doc] := by decide

/-- The truthiness of the rule only depends on the `dates` entry. -/
theorem truthyRule_congr_dates (e e' : Doc) (h : e.dates = e'.dates) :
    e.truthyRule = e'.truthyRule := by
  unfold Doc.truthyRule
  rw [h]

/-- `runReconcile` with a rule that fails to parse raises before issuing
any effect. -/
theorem runReconcile_parse_error (db : List Doc) (g1 : Nat)
    (u4 original : Doc) (rid : String) (r5 : RecurringRule)
    (dd5 : EventDates) (err : Err)
    (hbad : parseRuleArgs r5 = .error err) :
    (runReconcile db g1 u4 original rid r5 dd5).err.isSome = true ∧
    (runReconcile db g1 u4 original rid r5 dd5).eff = {} := by
  unfold runReconcile
  rcases hod : original.dates with _ | odd
  · exact ⟨rfl, rfl⟩
  dsimp only
  rcases hex : computeExisting db original odd rid with e2 | ex
  · exact ⟨rfl, rfl⟩
  dsimp only
  rcases hs : dd5.start with _ | ust
  · exact ⟨rfl, rfl⟩
  rcases he : dd5.end_ with _ | uen
  · exact ⟨rfl, rfl⟩
  dsimp only
  rw [materializeDates_error ust dd5.tz r5 err hbad]
  exact ⟨rfl, rfl⟩

/-- C7 (amended): a malformed recurrence rule (unknown frequency or
unparseable byday) makes the create path raise before returning — so
`post_in_mongo` persists nothing — and makes the update path raise before
any spike, delete, patch, create or notification; the in-memory payloads,
however, have already been mutated (guid/_id assignment, creator, expiry,
rule normalization), as the counterexample records. -/
theorem c7_reject_before_store_writes (store db : List Doc)
    (user : Option String) (g : Nat) (e updates original : Doc)
    (r ru : RecurringRule) (edd : EventDates) (stv env : Int) (err errU : Err)
    (hguid : e.guid = none) (hexpiry : e.expiry = none)
    (hr : e.truthyRule = some r) (hed : e.dates = some edd)
    (hst : edd.start = some stv) (hen : edd.end_ = some env)
    (hbad : parseRuleArgs (setRecurringModeRule r) = .error err)
    (hskip : updates.skip_on_update = false)
    (hru : updates.truthyRule = some ru)
    (hbadu : parseRuleArgs (setRecurringModeRule ru) = .error errU) :
    (on_create user [e] g).err = some err ∧
    post_in_mongo store user [e] g = (store, some err) ∧
    (on_update db user g updates original).err.isSome = true ∧
    (on_update db user g updates original).eff = {} := by
  have hrr : edd.recurring_rule = some (some r) ∧ r.truthy = true := by
    rcases h2 : edd.recurring_rule with _ | rr2
    · exfalso
      simp [Doc.truthyRule, hed, h2] at hr
    · rcases rr2 with _ | rr
      · exfalso
        simp [Doc.truthyRule, hed, h2] at hr
      · by_cases ht : rr.truthy
        · simp [Doc.truthyRule, hed, h2, ht] at hr
          subst hr
          exact ⟨rfl, ht⟩
        · exfalso
          simp [Doc.truthyRule, hed, h2, ht] at hr
  have hme := materializeDates_error stv edd.tz (setRecurringModeRule r) err hbad
  have hcreate : (on_create user [e] g).err = some err := by
    show (onCreateLoop user 1 [e] 0 g []).err = some err
    unfold onCreateLoop
    cases user with
    | none =>
      simp [set_original_creator, overwrite_event_expiry_date, hguid,
        hexpiry, Doc.truthyRule, hed, hrr.1, hrr.2, hst, hen, hme]
    | some uu =>
      simp [set_original_creator, overwrite_event_expiry_date, hguid,
        hexpiry, Doc.truthyRule, hed, hrr.1, hrr.2, hst, hen, hme]
  refine ⟨hcreate, ?_, ?_, ?_⟩
  · unfold post_in_mongo
    dsimp only
    rw [hcreate]
  · rw [on_update_eq_branchB db user g updates original ru hskip hru]
    exact (runReconcile_parse_error db _ _ original _ _ _ errU hbadu).1
  · rw [on_update_eq_branchB db user g updates original ru hskip hru]
    exact (runReconcile_parse_error db _ _ original _ _ _ errU hbadu).2

def c7upd : Doc :=
  { dates := some { start := some 0, end_ := some 60,
                    recurring_rule := some (some { frequency := some (some "FOO") }) } }

set_option maxRecDepth 100000 in
/-- C7 amended witness: the concrete malformed-frequency payloads are
rejected with the store untouched and no update effects. -/
theorem c7_reject_before_store_writes_witness :
    (on_create none [c7doc] 0).err = some Err.typeError ∧
    post_in_mongo [] none [c7doc] 0 = ([], some Err.typeError) ∧
    (on_update [] none 0 c7upd {}).err.isSome = true ∧
    (on_update [] none 0 c7upd {}).eff = {} :=
  c7_reject_before_store_writes [] [] none 0 c7doc c7upd {}
    { frequency := some (some "FOO") } { frequency := some (some "FOO") }
    { start := some 0, end_ := some 60,
      recurring_rule := some (some { frequency := some (some "FOO") }) }
    0 60 Err.typeError Err.typeError rfl rfl rfl rfl rfl rfl (by decide)
    rfl rfl (by decide)


/-! ## C9: the document following a recurring event is skipped -/

/-- The rule used in the C9 scenario: a one-occurrence daily series. -/
def c9rule : RecurringRule :=
  { frequency := some (some "DAILY"), endRepeatMode := some (some "count"),
    count := some (some 1) }

def rC9 : Doc :=
  { name := some "r",
    dates := some { start := some 0, end_ := some 60,
                    recurring_rule := some (some c9rule) } }

def eC9 : Doc :=
  { name := some "e",
    dates := some { start := some 0, end_ := some 60,
                    recurring_rule := some (some c9rule) } }

def fC9 : Doc := { name := some "f" }

set_option maxRecDepth 100000 in
/-- C9 counterexample: in `[rC9, eC9, fC9]` the event `eC9` carries a
recurring rule and is immediately followed by `fC9`, yet `fC9` is not
skipped — the loop assigns it a guid/_id.  (`eC9` is itself the document
skipped after `rC9` is removed, so no removal happens just before `fC9`.) -/
theorem c9_counterexample :
    eC9.truthyRule = some c9rule ∧ fC9.guid = none ∧ fC9.id = none ∧
    ¬ (∀ d ∈ (on_create none [rC9, eC9, fC9] 0).docs,
        d.name = some "f" → d.guid = none ∧ d.id = none) := by
  decide

/-- `set_original_creator` does not touch the guid. -/
theorem set_original_creator_guid (user : Option String) (e : Doc) :
    (set_original_creator user e).guid = e.guid := by
  cases user <;> rfl

/-- `set_original_creator` does not touch the dates. -/
theorem set_original_creator_dates (user : Option String) (e : Doc) :
    (set_original_creator user e).dates = e.dates := by
  cases user <;> rfl

/-- A successful expiry overwrite only touches the expiry field. -/
theorem overwrite_ok_preserves (x y : Doc)
    (h : overwrite_event_expiry_date x = .ok y) :
    y.dates = x.dates ∧ y.guid = x.guid := by
  unfold overwrite_event_expiry_date at h
  split at h
  · split at h
    · exact absurd h (by simp)
    · split at h
      · exact absurd h (by simp)
      · injection h with h2
        subst h2
        exact ⟨rfl, rfl⟩
  · injection h with h2
    subst h2
    exact ⟨rfl, rfl⟩

/-- Dropping the first copy of `x` keeps every other element, at the same
index or one lower. -/
theorem removeFirst_get_le (l : List Doc) (x f : Doc) :
    ∀ j, l.get? j = some f → f ≠ x →
      ∃ j', j' ≤ j ∧ (removeFirst l x).get? j' = some f := by
  induction l with
  | nil =>
    intro j hj _
    simp at hj
  | cons a as ih =>
    intro j hj hne
    by_cases hax : a = x
    · simp only [removeFirst, if_pos hax]
      cases j with
      | zero =>
        have ha : a = f := by simpa using hj
        exact absurd (ha ▸ hax) hne
      | succ j2 =>
        exact ⟨j2, Nat.le_succ j2, by simpa using hj⟩
    · simp only [removeFirst, if_neg hax]
      cases j with
      | zero =>
        exact ⟨0, Nat.le_refl 0, hj⟩
      | succ j2 =>
        obtain ⟨j', hle, hj'⟩ := ih j2 (by simpa using hj) hne
        exact ⟨j' + 1, Nat.succ_le_succ hle, by simpa using hj'⟩

/-- Past an index where `x` occurs, dropping the first copy of `x` shifts
every element down by one. -/
theorem removeFirst_get_ge (l : List Doc) (x : Doc) :
    ∀ m j, l.get? m = some x → m ≤ j →
      (removeFirst l x).get? j = l.get? (j + 1) := by
  induction l with
  | nil =>
    intro m j hm _
    simp at hm
  | cons a as ih =>
    intro m j hm hmj
    by_cases hax : a = x
    · simp [removeFirst, if_pos hax]
    · simp only [removeFirst, if_neg hax]
      cases m with
      | zero =>
        have : a = x := by simpa using hm
        exact absurd this hax
      | succ m2 =>
        cases j with
        | zero => exact absurd hmj (by omega)
        | succ j2 =>
          have := ih m2 j2 (by simpa using hm) (Nat.le_of_succ_le_succ hmj)
          simpa using this

/-- An element sitting strictly before the loop cursor survives the
`docs.set`-then-`remove` of one recurring round, staying before the bumped
cursor. -/
theorem keeps_after_remove (docs : List Doc) (i j : Nat) (e5 f : Doc)
    (hji : j < i) (hj : docs.get? j = some f)
    (hfg : f.guid = none) (hg5 : e5.guid.isSome) :
    ∃ j', j' < i + 1 ∧ (removeFirst (docs.set i e5) e5).get? j' = some f := by
  have fne : f ≠ e5 := by
    intro h
    rw [h] at hfg
    rw [hfg] at hg5
    simp at hg5
  have hset : (docs.set i e5).get? j = some f := by
    rw [List.get?_set_ne e5 docs (Nat.ne_of_gt hji)]
    exact hj
  obtain ⟨j', hle, hj'⟩ := removeFirst_get_le (docs.set i e5) e5 f j hset fne
  exact ⟨j', Nat.lt_succ_of_lt (Nat.lt_of_le_of_lt hle hji), hj'⟩

/-- Once the cursor has passed a document, no later round of the creation
loop can drop it from the list: mutation happens only at the cursor, and a
removed document always carries an assigned guid. -/
theorem onCreateLoop_keeps (user : Option String) (f : Doc)
    (hf : f.guid = none) :
    ∀ (fuel : Nat) (docs : List Doc) (i g : Nat) (acc : List Doc),
      (∃ j, j < i ∧ docs.get? j = some f) →
      f ∈ (onCreateLoop user fuel docs i g acc).docs := by
  intro fuel
  induction fuel with
  | zero =>
    intro docs i g acc hex
    obtain ⟨j, _, hj⟩ := hex
    exact List.mem_append_left _ (List.get?_mem hj)
  | succ n ih =>
    intro docs i g acc hex
    obtain ⟨j, hji, hj⟩ := hex
    have hjset : ∀ (z : Doc), (docs.set i z).get? j = some f := fun z => by
      rw [List.get?_set_ne z docs (Nat.ne_of_gt hji)]
      exact hj
    rw [onCreateLoop]
    by_cases hi : i < docs.length
    · rw [dif_pos hi]
      rcases hg : (docs.get ⟨i, hi⟩).guid with _ | gv <;>
      · simp only [hg]
        split
        · exact List.get?_mem (hjset _)
        · rename_i e4 heq
          split
          · split
            · split
              · exact List.get?_mem (hjset _)
              · refine ih _ _ _ _ (keeps_after_remove docs i j _ f hji hj hf ?_)
                show e4.guid.isSome
                rw [(overwrite_ok_preserves _ _ heq).2, set_original_creator_guid]
                rfl
            · exact List.get?_mem (hjset _)
          · exact ih _ _ _ _ ⟨j, Nat.lt_succ_of_lt hji, hjset _⟩
    · rw [dif_neg hi]
      exact List.mem_append_left _ (List.get?_mem hj)

/-- A truthy rule can only come out of a present dates dict. -/
theorem truthyRule_some (e : Doc) (r : RecurringRule) (h : e.truthyRule = some r) :
    ∃ dd, e.dates = some dd ∧ dd.recurring_rule = some (some r) := by
  unfold Doc.truthyRule at h
  split at h
  case h_2 => exact absurd h (by simp)
  rename_i dd hdd
  split at h
  case h_2 => exact absurd h (by simp)
  rename_i r2 hr2
  split at h
  case isFalse => exact absurd h (by simp)
  injection h with h2
  subst h2
  exact ⟨dd, hdd, hr2⟩

/-- Setting the element right after a prefix. -/
theorem set_append_len (l1 l2 : List Doc) (a : Doc) :
    (l1 ++ l2).set l1.length a = l1 ++ l2.set 0 a := by
  induction l1 with
  | nil => rfl
  | cons x xs ih => simp [List.set, ih]

/-- The document right after the cursor survives the `set`-then-`remove` of
a recurring round, landing strictly before the bumped cursor. -/
theorem follower_after_remove (docs : List Doc) (i : Nat) (e5 f : Doc)
    (hi : i < docs.length)
    (hf1 : docs.get? (i + 1) = some f) :
    ∃ j', j' < i + 1 ∧ (removeFirst (docs.set i e5) e5).get? j' = some f := by
  have hm : (docs.set i e5).get? i = some e5 :=
    List.get?_set_eq_of_lt e5 (by simpa using hi)
  refine ⟨i, Nat.lt_succ_self i, ?_⟩
  rw [removeFirst_get_ge _ _ i i hm (Nat.le_refl i),
    List.get?_set_ne e5 docs (by omega)]
  exact hf1

/-- Driving the creation loop down a prefix of non-recurring documents to a
recurring one: the document right behind the recurring one is still in the
final list, untouched.  The cursor sits at `done.length`; `fuel`, `g` and
`acc` are arbitrary. -/
theorem onCreateLoop_skips_follower (user : Option String) (f : Doc)
    (hf : f.guid = none) :
    ∀ (pre : List Doc) (fuel : Nat) (done : List Doc) (e : Doc)
      (post : List Doc) (g : Nat) (acc : List Doc) (r : RecurringRule),
      (∀ p ∈ pre, p.truthyRule = none) →
      e.truthyRule = some r →
      f ∈ (onCreateLoop user fuel (done ++ (pre ++ e :: f :: post))
            done.length g acc).docs := by
  intro pre
  induction pre with
  | nil =>
    intro fuel done e post g acc r _ her
    cases fuel with
    | zero =>
      exact List.mem_append_left _ (by simp)
    | succ n =>
      simp only [List.nil_append]
      have hflt : done.length < (done ++ e :: f :: post).length := by
        simp
      have hcur : (done ++ e :: f :: post).get ⟨done.length, hflt⟩ = e := by
        have h1 : (done ++ e :: f :: post).get? done.length = some e := by
          rw [List.get?_append_right (Nat.le_refl done.length)]
          simp
        rw [List.get?_eq_get hflt] at h1
        exact Option.some.inj h1
      have hf1 : (done ++ e :: f :: post).get? (done.length + 1) = some f := by
        rw [List.get?_append_right (by omega)]
        simp
      have hset1 : ∀ (z : Doc),
          ((done ++ e :: f :: post).set done.length z).get? (done.length + 1) =
            some f := fun z => by
        rw [List.get?_set_ne z _ (by omega)]
        exact hf1
      obtain ⟨dd, hed, -⟩ := truthyRule_some e r her
      rw [onCreateLoop]
      rw [dif_pos hflt, hcur]
      rcases hg : e.guid with _ | gv <;>
      · simp only [hg]
        split
        · exact List.get?_mem (hset1 _)
        · rename_i e4 heq
          have hd4 : e4.dates = e.dates := by
            rw [(overwrite_ok_preserves _ _ heq).1, set_original_creator_dates]
          have htr4 : e4.truthyRule = some r := by
            rw [truthyRule_congr_dates e4 e hd4]
            exact her
          simp only [htr4, hd4, hed]
          split
          · split
            · exact List.get?_mem (hset1 _)
            · exact onCreateLoop_keeps user f hf n _ _ _ _
                (follower_after_remove _ done.length _ f hflt hf1)
          · exact List.get?_mem (hset1 _)
  | cons p pre2 ih =>
    intro fuel done e post g acc r hpre her
    cases fuel with
    | zero =>
      exact List.mem_append_left _ (by simp)
    | succ n =>
      have hp : p.truthyRule = none := hpre p (by simp)
      have hpre2 : ∀ q ∈ pre2, q.truthyRule = none := fun q hq =>
        hpre q (by simp [hq])
      have hflt : done.length <
          (done ++ p :: (pre2 ++ e :: f :: post)).length := by
        simp
      have hcur : (done ++ p :: (pre2 ++ e :: f :: post)).get
          ⟨done.length, hflt⟩ = p := by
        have h1 : (done ++ p :: (pre2 ++ e :: f :: post)).get? done.length =
            some p := by
          rw [List.get?_append_right (Nat.le_refl done.length)]
          simp
        rw [List.get?_eq_get hflt] at h1
        exact Option.some.inj h1
      simp only [List.cons_append]
      rw [onCreateLoop]
      rw [dif_pos hflt, hcur]
      rcases hg : p.guid with _ | gv <;>
      · simp only [hg]
        split
        · simp only [set_append_len]
          simp
        · rename_i p4 heq
          have hd4 : p4.dates = p.dates := by
            rw [(overwrite_ok_preserves _ _ heq).1, set_original_creator_dates]
          have htr4 : p4.truthyRule = none := by
            rw [truthyRule_congr_dates p4 p hd4]
            exact hp
          split
          · rename_i r2 dd h1 h2
            rw [htr4] at h1
            exact absurd h1 (by simp)
          · simpa [set_append_len] using
              ih n (done ++ [p4]) e post _ acc r hpre2 her

/-- **C9** (amended): the removed-while-iterating skip holds for the
document right behind the *first* recurring event of the batch: when every
document before `e` carries no recurring rule, `e` carries one, and the
follower `f` arrives (as create payloads do) without a preset guid, then
`f` comes out of `on_create` untouched — same value, hence no guid/_id
assignment, no creator, no expiry overwrite and no expansion for it.  (The
claim's unrestricted version is refuted by `c9_counterexample`: a follower
that was itself skipped does not protect *its* follower.) -/
theorem c9_follower_skipped_amended (user : Option String)
    (pre post : List Doc) (e f : Doc) (g : Nat) (r : RecurringRule)
    (hpre : ∀ p ∈ pre, p.truthyRule = none)
    (hf : f.guid = none)
    (her : e.truthyRule = some r) :
    f ∈ (on_create user (pre ++ e :: f :: post) g).docs :=
  onCreateLoop_skips_follower user f hf pre _ [] e post g [] r hpre her

set_option maxRecDepth 100000 in
/-- C9 amended witness: in the concrete batch `[eC9, fC9]` the follower of
the recurring event comes out of `on_create` untouched. -/
theorem c9_follower_skipped_amended_witness :
    (∀ p ∈ ([] : List Doc), p.truthyRule = none) ∧ fC9.guid = none ∧
    eC9.truthyRule = some c9rule ∧
    fC9 ∈ (on_create none ([] ++ eC9 :: fC9 :: []) 0).docs :=
  ⟨by simp, rfl, rfl, c9_follower_skipped_amended none [] [] eC9 fC9 0 c9rule
    (by simp) rfl rfl⟩

/-! ## C1: round-trip of create-expansion and update-reconciliation

The generator lemmas: reseeding the rule at its own first occurrence
reproduces the same first 200 instants. -/

/-- Divisibility test under a divisible left shift. -/
theorem dvdBy_add_left (i : Nat) (x y : Int) (h : dvdBy i x = true) :
    dvdBy i (x + y) = dvdBy i y := by
  obtain ⟨k, hk⟩ := Int.dvd_of_emod_eq_zero (by simpa [dvdBy] using h)
  subst hk
  simp only [dvdBy]
  rw [add_comm, Int.add_mul_emod_self_left]

theorem wkdOf_add_mul7 (x k : Int) : wkdOf (x + k * 7) = wkdOf x := by
  simp [wkdOf, Int.add_mul_emod_self_left]

theorem weekdayMem_add_mul7 (ws : List Weekday) (x k : Int) :
    weekdayMem ws (x + k * 7) = weekdayMem ws x := by
  simp [weekdayMem, wkdOf_add_mul7]

theorem ediv7_add_mul7 (x k : Int) : (x + k * 7) / 7 = x / 7 + k :=
  Int.add_mul_ediv_right x k (by norm_num)

theorem monthIdx_add_mul30 (x k : Int) : monthIdx (x + k * 30) = monthIdx x + k := by
  simp only [monthIdx]
  exact Int.add_mul_ediv_right x k (by norm_num)

theorem dayOfMonth_add_mul30 (x k : Int) : dayOfMonth (x + k * 30) = dayOfMonth x := by
  simp only [dayOfMonth]
  rw [Int.add_mul_emod_self]

theorem yearIdx_add_mul360 (x k : Int) : yearIdx (x + k * 360) = yearIdx x + k := by
  simp only [yearIdx]
  exact Int.add_mul_ediv_right x k (by norm_num)

theorem dayOfYear_add_mul360 (x k : Int) : dayOfYear (x + k * 360) = dayOfYear x := by
  simp only [dayOfYear]
  rw [Int.add_mul_emod_self]

theorem monthWeekdayOffsets_add7 (m k : Int) (w : Weekday) :
    monthWeekdayOffsets (m + 7 * k) w = monthWeekdayOffsets m w := by
  unfold monthWeekdayOffsets
  apply List.filter_congr
  intro j _
  have h : 30 * (m + 7 * k) + (j : Int) = (30 * m + (j : Int)) + (30 * k) * 7 := by
    ring
  rw [h, wkdOf_add_mul7]

theorem yearWeekdayOffsets_add7 (y k : Int) (w : Weekday) :
    yearWeekdayOffsets (y + 7 * k) w = yearWeekdayOffsets y w := by
  unfold yearWeekdayOffsets
  apply List.filter_congr
  intro j _
  have h : 360 * (y + 7 * k) + (j : Int) = (360 * y + (j : Int)) + (360 * k) * 7 := by
    ring
  rw [h, wkdOf_add_mul7]

theorem isNthWeekdayOfMonth_add_mul210 (w : Weekday) (n : Int) (x k : Int) :
    isNthWeekdayOfMonth w n (x + k * 210) = isNthWeekdayOfMonth w n x := by
  unfold isNthWeekdayOfMonth
  have h1 : monthIdx (x + k * 210) = monthIdx x + 7 * k := by
    have h : x + k * 210 = x + (7 * k) * 30 := by ring
    rw [h, monthIdx_add_mul30]
  have h2 : dayOfMonth (x + k * 210) = dayOfMonth x := by
    have h : x + k * 210 = x + (7 * k) * 30 := by ring
    rw [h, dayOfMonth_add_mul30]
  rw [h1, h2, monthWeekdayOffsets_add7]

theorem isNthWeekdayOfYear_add_mul2520 (w : Weekday) (n : Int) (x k : Int) :
    isNthWeekdayOfYear w n (x + k * 2520) = isNthWeekdayOfYear w n x := by
  unfold isNthWeekdayOfYear
  have h1 : yearIdx (x + k * 2520) = yearIdx x + 7 * k := by
    have h : x + k * 2520 = x + (7 * k) * 360 := by ring
    rw [h, yearIdx_add_mul360]
  have h2 : dayOfYear (x + k * 2520) = dayOfYear x := by
    have h : x + k * 2520 = x + (7 * k) * 360 := by ring
    rw [h, dayOfYear_add_mul360]
  rw [h1, h2, yearWeekdayOffsets_add7]

/-- Re-anchoring `dayMatches` at a matching offset `d0`: offset `d` from the
new seed matches exactly when offset `d0 + d` from the old seed does. -/
theorem dayMatches_shift (a : RuleArgs) (sDay : Int) (d0 : Nat)
    (h0 : dayMatches a sDay d0 = true) (d : Nat) :
    dayMatches a (sDay + (d0 : Int)) d = dayMatches a sDay (d0 + d) := by
  have hc : ((d0 + d : Nat) : Int) = (d0 : Int) + (d : Int) := by push_cast; ring
  unfold dayMatches at h0 ⊢
  rcases hf : a.freq
  case daily =>
    simp only [hf] at h0 ⊢
    rw [Bool.and_eq_true] at h0
    obtain ⟨h1, -⟩ := h0
    rw [hc, ← add_assoc, dvdBy_add_left _ _ _ h1]
  case weekly =>
    simp only [hf] at h0 ⊢
    rw [Bool.and_eq_true] at h0
    obtain ⟨h1, h2⟩ := h0
    rw [hc, ← add_assoc]
    have e1 : (sDay + (d0:Int) + (d:Int)) / 7 - sDay / 7 =
        ((sDay + (d0:Int)) / 7 - sDay / 7) +
          ((sDay + (d0:Int) + (d:Int)) / 7 - (sDay + (d0:Int)) / 7) := by
      ring
    rw [e1, dvdBy_add_left _ _ _ h1]
    rcases hw : a.byweekday with _ | bw
    · simp only [hw] at h2 ⊢
      have h2e : wkdOf (sDay + (d0:Int)) = wkdOf sDay := by simpa using h2
      rw [h2e]
    · cases bw <;> rfl
  case monthly =>
    simp only [hf] at h0 ⊢
    rw [Bool.and_eq_true] at h0
    obtain ⟨h1, h2⟩ := h0
    rw [hc, ← add_assoc]
    have e1 : monthIdx (sDay + (d0:Int) + (d:Int)) - monthIdx sDay =
        (monthIdx (sDay + (d0:Int)) - monthIdx sDay) +
          (monthIdx (sDay + (d0:Int) + (d:Int)) - monthIdx (sDay + (d0:Int))) := by
      ring
    rw [e1, dvdBy_add_left _ _ _ h1]
    rcases hw : a.byweekday with _ | bw
    · simp only [hw] at h2 ⊢
      have h2e : dayOfMonth (sDay + (d0:Int)) = dayOfMonth sDay := by simpa using h2
      rw [h2e]
    · cases bw <;> rfl
  case yearly =>
    simp only [hf] at h0 ⊢
    rw [Bool.and_eq_true] at h0
    obtain ⟨h1, h2⟩ := h0
    rw [hc, ← add_assoc]
    have e1 : yearIdx (sDay + (d0:Int) + (d:Int)) - yearIdx sDay =
        (yearIdx (sDay + (d0:Int)) - yearIdx sDay) +
          (yearIdx (sDay + (d0:Int) + (d:Int)) - yearIdx (sDay + (d0:Int))) := by
      ring
    rw [e1, dvdBy_add_left _ _ _ h1]
    rcases hw : a.byweekday with _ | bw
    · simp only [hw] at h2 ⊢
      have h2e : dayOfYear (sDay + (d0:Int)) = dayOfYear sDay := by simpa using h2
      rw [h2e]
    · cases bw <;> rfl

/-- `dayMatches` is periodic in the offset with period `7 * periodDays`. -/
theorem dayMatches_period (a : RuleArgs) (sDay : Int) (d : Nat) :
    dayMatches a sDay (d + 7 * periodDays a) = dayMatches a sDay d := by
  unfold dayMatches periodDays
  rcases hf : a.freq
  case daily =>
    simp only [hf]
    have hc : ((d + 7 * (a.interval * 1) : Nat) : Int) =
        (d : Int) + (a.interval : Int) * 7 := by push_cast; ring
    rw [hc, ← add_assoc]
    have hg : dvdBy a.interval ((d:Int) + (a.interval:Int) * 7) =
        dvdBy a.interval (d:Int) := by
      simp only [dvdBy]
      rw [Int.add_mul_emod_self_left]
    rw [hg]
    rcases hw : a.byweekday with _ | bw
    · rfl
    · cases bw with
      | ordinal w n =>
        dsimp only
        rw [wkdOf_add_mul7]
      | plain ws =>
        dsimp only
        rw [weekdayMem_add_mul7]
  case weekly =>
    simp only [hf]
    have hc : ((d + 7 * (a.interval * 7) : Nat) : Int) =
        (d : Int) + ((a.interval : Int) * 7) * 7 := by push_cast; ring
    rw [hc, ← add_assoc, ediv7_add_mul7]
    have hg : dvdBy a.interval
          ((sDay + (d:Int)) / 7 + (a.interval:Int) * 7 - sDay / 7) =
        dvdBy a.interval ((sDay + (d:Int)) / 7 - sDay / 7) := by
      have e1 : (sDay + (d:Int)) / 7 + (a.interval:Int) * 7 - sDay / 7 =
          ((sDay + (d:Int)) / 7 - sDay / 7) + (a.interval:Int) * 7 := by ring
      rw [e1]
      simp only [dvdBy]
      rw [Int.add_mul_emod_self_left]
    rw [hg]
    rcases hw : a.byweekday with _ | bw
    · dsimp only
      rw [wkdOf_add_mul7]
    · cases bw with
      | ordinal w n =>
        dsimp only
        rw [wkdOf_add_mul7]
      | plain ws =>
        dsimp only
        rw [weekdayMem_add_mul7]
  case monthly =>
    simp only [hf]
    have hc : ((d + 7 * (a.interval * 30) : Nat) : Int) =
        (d : Int) + (a.interval : Int) * 210 := by push_cast; ring
    rw [hc, ← add_assoc]
    have hm : monthIdx (sDay + (d:Int) + (a.interval:Int) * 210) =
        monthIdx (sDay + (d:Int)) + 7 * (a.interval:Int) := by
      have e : sDay + (d:Int) + (a.interval:Int) * 210 =
          (sDay + (d:Int)) + (7 * (a.interval:Int)) * 30 := by ring
      rw [e, monthIdx_add_mul30]
    have hdm : dayOfMonth (sDay + (d:Int) + (a.interval:Int) * 210) =
        dayOfMonth (sDay + (d:Int)) := by
      have e : sDay + (d:Int) + (a.interval:Int) * 210 =
          (sDay + (d:Int)) + (7 * (a.interval:Int)) * 30 := by ring
      rw [e, dayOfMonth_add_mul30]
    rw [hm]
    have hg : dvdBy a.interval
          (monthIdx (sDay + (d:Int)) + 7 * (a.interval:Int) - monthIdx sDay) =
        dvdBy a.interval (monthIdx (sDay + (d:Int)) - monthIdx sDay) := by
      have e1 : monthIdx (sDay + (d:Int)) + 7 * (a.interval:Int) - monthIdx sDay =
          (monthIdx (sDay + (d:Int)) - monthIdx sDay) + (a.interval:Int) * 7 := by
        ring
      rw [e1]
      simp only [dvdBy]
      rw [Int.add_mul_emod_self_left]
    rw [hg]
    rcases hw : a.byweekday with _ | bw
    · dsimp only
      rw [hdm]
    · cases bw with
      | ordinal w n =>
        dsimp only
        rw [isNthWeekdayOfMonth_add_mul210]
      | plain ws =>
        dsimp only
        have e : sDay + (d:Int) + (a.interval:Int) * 210 =
            (sDay + (d:Int)) + (30 * (a.interval:Int)) * 7 := by ring
        rw [e, weekdayMem_add_mul7]
  case yearly =>
    simp only [hf]
    have hc : ((d + 7 * (a.interval * 360) : Nat) : Int) =
        (d : Int) + (a.interval : Int) * 2520 := by push_cast; ring
    rw [hc, ← add_assoc]
    have hm : yearIdx (sDay + (d:Int) + (a.interval:Int) * 2520) =
        yearIdx (sDay + (d:Int)) + 7 * (a.interval:Int) := by
      have e : sDay + (d:Int) + (a.interval:Int) * 2520 =
          (sDay + (d:Int)) + (7 * (a.interval:Int)) * 360 := by ring
      rw [e, yearIdx_add_mul360]
    have hdm : dayOfYear (sDay + (d:Int) + (a.interval:Int) * 2520) =
        dayOfYear (sDay + (d:Int)) := by
      have e : sDay + (d:Int) + (a.interval:Int) * 2520 =
          (sDay + (d:Int)) + (7 * (a.interval:Int)) * 360 := by ring
      rw [e, dayOfYear_add_mul360]
    rw [hm]
    have hg : dvdBy a.interval
          (yearIdx (sDay + (d:Int)) + 7 * (a.interval:Int) - yearIdx sDay) =
        dvdBy a.interval (yearIdx (sDay + (d:Int)) - yearIdx sDay) := by
      have e1 : yearIdx (sDay + (d:Int)) + 7 * (a.interval:Int) - yearIdx sDay =
          (yearIdx (sDay + (d:Int)) - yearIdx sDay) + (a.interval:Int) * 7 := by
        ring
      rw [e1]
      simp only [dvdBy]
      rw [Int.add_mul_emod_self_left]
    rw [hg]
    rcases hw : a.byweekday with _ | bw
    · dsimp only
      rw [hdm]
    · cases bw with
      | ordinal w n =>
        dsimp only
        rw [isNthWeekdayOfYear_add_mul2520]
      | plain ws =>
        dsimp only
        have e : sDay + (d:Int) + (a.interval:Int) * 2520 =
            (sDay + (d:Int)) + (360 * (a.interval:Int)) * 7 := by ring
        rw [e, weekdayMem_add_mul7]

theorem occDays_sorted (a : RuleArgs) (sDay : Int) :
    (occDays a sDay).Pairwise (· < ·) :=
  (List.pairwise_lt_range _).filter _

theorem mem_occDays (a : RuleArgs) (sDay : Int) (d : Nat) :
    d ∈ occDays a sDay ↔ d < window a ∧ dayMatches a sDay d = true := by
  simp [occDays, List.mem_filter, List.mem_range]

/-- Below the head of `occDays` nothing matches. -/
theorem occDays_head_min (a : RuleArgs) (sDay : Int) (d0 : Nat) (rest : List Nat)
    (hA : occDays a sDay = d0 :: rest) :
    ∀ dd, dd < d0 → dayMatches a sDay dd = false := by
  intro dd hdd
  cases hq : dayMatches a sDay dd
  · rfl
  · exfalso
    have hd0m : d0 ∈ occDays a sDay := by
      rw [hA]
      exact List.mem_cons_self d0 rest
    have hd0w : d0 < window a := ((mem_occDays a sDay d0).mp hd0m).1
    have hmem : dd ∈ occDays a sDay :=
      (mem_occDays a sDay dd).mpr ⟨lt_trans hdd hd0w, hq⟩
    have hs := occDays_sorted a sDay
    rw [hA] at hmem hs
    rcases List.mem_cons.mp hmem with h1 | h1
    · omega
    · have := List.rel_of_pairwise_cons hs h1
      omega

theorem periodDays_pos (a : RuleArgs) (hI : a.interval ≠ 0) :
    0 < periodDays a := by
  unfold periodDays
  cases a.freq <;> simp <;> omega

/-- The first match sits within the first 7·period days. -/
theorem occDays_head_lt_period (a : RuleArgs) (sDay : Int) (d0 : Nat)
    (rest : List Nat) (hI : a.interval ≠ 0)
    (hA : occDays a sDay = d0 :: rest) :
    d0 < 7 * periodDays a := by
  by_contra hge
  push_neg at hge
  have hpd : 0 < periodDays a := periodDays_pos a hI
  have hd0m : d0 ∈ occDays a sDay := by
    rw [hA]
    exact List.mem_cons_self d0 rest
  have hq0 : dayMatches a sDay d0 = true := ((mem_occDays a sDay d0).mp hd0m).2
  have hper := dayMatches_period a sDay (d0 - 7 * periodDays a)
  rw [Nat.sub_add_cancel hge] at hper
  rw [hper] at hq0
  have hmin := occDays_head_min a sDay d0 rest hA (d0 - 7 * periodDays a)
    (by omega)
  rw [hmin] at hq0
  exact Bool.false_ne_true hq0

/-- A nonempty `occDays` holds at least 200 matches: the window spans 200
periods and matches recur every period. -/
theorem occDays_length_ge (a : RuleArgs) (sDay : Int) (hI : a.interval ≠ 0)
    (d0 : Nat) (rest : List Nat) (hA : occDays a sDay = d0 :: rest) :
    200 ≤ (occDays a sDay).length := by
  have hpd : 0 < periodDays a := periodDays_pos a hI
  have hd0P : d0 < 7 * periodDays a := occDays_head_lt_period a sDay d0 rest hI hA
  have hd0m : d0 ∈ occDays a sDay := by
    rw [hA]
    exact List.mem_cons_self d0 rest
  have hq0 : dayMatches a sDay d0 = true := ((mem_occDays a sDay d0).mp hd0m).2
  have hmatch : ∀ j : Nat, dayMatches a sDay (d0 + 7 * periodDays a * j) = true := by
    intro j
    induction j with
    | zero => simpa using hq0
    | succ k ihk =>
      have e : d0 + 7 * periodDays a * (k + 1) =
          (d0 + 7 * periodDays a * k) + 7 * periodDays a := by ring
      rw [e, dayMatches_period]
      exact ihk
  have hwin : ∀ j : Nat, j < 200 → d0 + 7 * periodDays a * j < window a := by
    intro j hj
    have h1 : 7 * periodDays a * j ≤ 7 * periodDays a * 199 :=
      Nat.mul_le_mul_left (7 * periodDays a) (by omega)
    have h2 : window a = 200 * (7 * periodDays a) := by
      unfold window
      ring
    omega
  have hsub : ∀ j : Nat, j < 200 → (d0 + 7 * periodDays a * j) ∈ occDays a sDay :=
    fun j hj => (mem_occDays a sDay _).mpr ⟨hwin j hj, hmatch j⟩
  have hinj : Function.Injective (fun j : Nat => d0 + 7 * periodDays a * j) := by
    intro x y hxy
    simp only at hxy
    have := Nat.add_left_cancel hxy
    exact Nat.eq_of_mul_eq_mul_left (by omega) this
  have hnd : ((List.range 200).map (fun j => d0 + 7 * periodDays a * j)).Nodup :=
    (List.nodup_range 200).map hinj
  have hcard : ((List.range 200).map
      (fun j => d0 + 7 * periodDays a * j)).toFinset.card = 200 := by
    rw [List.toFinset_card_of_nodup hnd]
    simp
  have hsubF : ((List.range 200).map
      (fun j => d0 + 7 * periodDays a * j)).toFinset ⊆ (occDays a sDay).toFinset := by
    intro x hx
    rw [List.mem_toFinset] at hx ⊢
    obtain ⟨j, hj, rfl⟩ := List.mem_map.mp hx
    exact hsub j (List.mem_range.mp hj)
  calc 200 = ((List.range 200).map
        (fun j => d0 + 7 * periodDays a * j)).toFinset.card := hcard.symm
    _ ≤ (occDays a sDay).toFinset.card := Finset.card_le_card hsubF
    _ ≤ (occDays a sDay).length := List.toFinset_card_le _

/-- Re-seeding `occDays` at its first match: the new enumeration (shifted
back to old offsets) is the old one followed by the matches of the extra
`d0` days the shifted window reaches. -/
theorem occDays_reseed (a : RuleArgs) (sDay : Int) (d0 : Nat) (rest : List Nat)
    (hA : occDays a sDay = d0 :: rest) :
    (occDays a (sDay + (d0 : Int))).map (fun d => d0 + d) =
      (d0 :: rest) ++
        (List.range' (window a) d0).filter (dayMatches a sDay) := by
  have hd0m : d0 ∈ occDays a sDay := by
    rw [hA]
    exact List.mem_cons_self d0 rest
  obtain ⟨hd0w, hq0⟩ := (mem_occDays a sDay d0).mp hd0m
  have h1 : occDays a (sDay + (d0:Int)) =
      (List.range (window a)).filter (fun d => dayMatches a sDay (d0 + d)) := by
    unfold occDays
    exact List.filter_congr (fun d _ => dayMatches_shift a sDay d0 hq0 d)
  have h2 : (occDays a (sDay + (d0:Int))).map (fun d => d0 + d) =
      ((List.range (window a)).map (fun d => d0 + d)).filter
        (dayMatches a sDay) := by
    rw [h1]
    have hco : (List.range (window a)).filter (fun d => dayMatches a sDay (d0 + d)) =
        (List.range (window a)).filter ((dayMatches a sDay) ∘ (fun d => d0 + d)) :=
      rfl
    rw [hco]
    exact (List.filter_map (fun d => d0 + d) (List.range (window a))).symm
  have h3 : (List.range (window a)).map (fun d => d0 + d) =
      List.range' d0 (window a) := (List.range'_eq_map_range d0 (window a)).symm
  have h4 := (List.range'_append d0 (window a - d0) d0 1).symm
  rw [show d0 + 1 * (window a - d0) = window a by omega] at h4
  rw [show d0 + (window a - d0) = window a by omega] at h4
  have h5 : List.range (window a) =
      List.range' 0 d0 ++ List.range' d0 (window a - d0) := by
    rw [List.range_eq_range']
    have h5a := List.range'_append 0 d0 (window a - d0) 1
    rw [show (0:Nat) + 1 * d0 = d0 by omega] at h5a
    rw [show window a - d0 + d0 = window a by omega] at h5a
    exact h5a.symm
  have h6 : (List.range' 0 d0).filter (dayMatches a sDay) = [] := by
    rw [List.filter_eq_nil_iff]
    intro x hx
    have hxd0 : x < d0 := by
      have := List.mem_range'_1.mp hx
      omega
    rw [occDays_head_min a sDay d0 rest hA x hxd0]
    simp
  have h7 : (List.range (window a)).filter (dayMatches a sDay) =
      (List.range' 0 d0).filter (dayMatches a sDay) ++
      (List.range' d0 (window a - d0)).filter (dayMatches a sDay) := by
    rw [← List.filter_append, ← h5]
  rw [h6, List.nil_append] at h7
  calc (occDays a (sDay + (d0:Int))).map (fun d => d0 + d)
      = ((List.range (window a)).map (fun d => d0 + d)).filter
          (dayMatches a sDay) := h2
    _ = (List.range' d0 (window a)).filter (dayMatches a sDay) := by rw [h3]
    _ = (List.range' d0 (window a - d0)).filter (dayMatches a sDay) ++
        (List.range' (window a) d0).filter (dayMatches a sDay) := by
        rw [h4, List.filter_append]
    _ = (d0 :: rest) ++
        (List.range' (window a) d0).filter (dayMatches a sDay) := by
        congr 1
        rw [← h7]
        exact hA

theorem applyUntil_nil (u : Option Int) : applyUntil u [] = [] := by
  cases u <;> rfl

theorem applyCount_nil (c : Option Nat) : applyCount c [] = [] := by
  cases c with
  | none => rfl
  | some n => simp [applyCount]

/-- The first generated instant is the head of the raw instant list: the
until-filter keeps an ascending list's head and the count cap keeps a
nonempty prefix. -/
theorem head_of_occApply (c : Option Nat) (u : Option Int) (x : Int)
    (xs : List Int) (hs : ∀ y ∈ xs, x < y) (t0 : Int) (rest : List Int)
    (h : applyCount c (applyUntil u (x :: xs)) = t0 :: rest) : t0 = x := by
  have hcount : ∀ (l : List Int) (z : Int) (zs : List Int),
      applyCount c (z :: l) = t0 :: zs → t0 = z := by
    intro l z zs hz
    cases c with
    | none =>
      exact (List.cons.injEq .. ▸ hz).1.symm
    | some n =>
      cases n with
      | zero => simp [applyCount] at hz
      | succ m =>
        simp only [applyCount, List.take_succ_cons] at hz
        exact (List.cons.injEq .. ▸ hz).1.symm
  cases u with
  | none =>
    exact hcount xs x rest h
  | some b =>
    simp only [applyUntil] at h
    by_cases hxb : x ≤ b
    · rw [List.filter_cons_of_pos (by simpa using hxb)] at h
      exact hcount _ x rest h
    · rw [List.filter_cons_of_neg (by simpa using hxb)] at h
      have hnil : xs.filter (fun t => t ≤ b) = [] := by
        rw [List.filter_eq_nil_iff]
        intro y hy
        have := hs y hy
        simp only [decide_eq_true_eq]
        omega
      rw [hnil] at h
      rw [applyCount_nil] at h
      exact absurd h (by simp)

theorem instant_ediv (sD tod : Int) (h0 : 0 ≤ tod) (h1 : tod < 1440) :
    (sD * 1440 + tod) / 1440 = sD := by
  rw [add_comm, Int.add_mul_ediv_right tod sD (by norm_num)]
  rw [Int.ediv_eq_zero_of_lt h0 h1, zero_add]

theorem instant_emod (sD tod : Int) (h0 : 0 ≤ tod) (h1 : tod < 1440) :
    (sD * 1440 + tod) % 1440 = tod := by
  rw [add_comm, Int.add_mul_emod_self, Int.emod_eq_of_lt h0 h1]

/-- Extending the raw instant list past 200 kept elements (or past the until
bound) does not change the first 200 of the until-filtered list. -/
theorem take200_applyUntil_ext (u : Option Int) (LC T : List Int)
    (h200 : 200 ≤ LC.length)
    (hCT : ∀ x ∈ LC, ∀ y ∈ T, x < y) :
    (applyUntil u (LC ++ T)).take 200 = (applyUntil u LC).take 200 := by
  cases u with
  | none =>
    simp only [applyUntil]
    exact List.take_append_of_le_length h200
  | some b =>
    simp only [applyUntil, List.filter_append]
    by_cases hall : ∀ x ∈ LC, x ≤ b
    · have hself : LC.filter (fun t => t ≤ b) = LC :=
        List.filter_eq_self.mpr (fun x hx => by simpa using hall x hx)
      rw [hself]
      exact List.take_append_of_le_length h200
    · push_neg at hall
      obtain ⟨z, hz, hzb⟩ := hall
      have hT : T.filter (fun t => t ≤ b) = [] := by
        rw [List.filter_eq_nil_iff]
        intro y hy
        have := hCT z hz y hy
        simp only [decide_eq_true_eq]
        omega
      rw [hT, List.append_nil]

theorem take200_applyCount (c : Option Nat) (X Y : List Int)
    (h : X.take 200 = Y.take 200) :
    (applyCount c X).take 200 = (applyCount c Y).take 200 := by
  cases c with
  | none => exact h
  | some n =>
    simp only [applyCount]
    rw [List.take_take, List.take_take]
    calc X.take (200 ⊓ n) = (X.take 200).take (200 ⊓ n) := by
          rw [List.take_take]
          congr 1
          omega
      _ = (Y.take 200).take (200 ⊓ n) := by rw [h]
      _ = Y.take (200 ⊓ n) := by
          rw [List.take_take]
          congr 1
          omega

/-- Re-seeding a rule at its own first generated instant reproduces the same
first 200 instants. -/
theorem occList_reseed_take200 (a : RuleArgs) (s0 t0 : Int) (rest : List Int)
    (hI : a.interval ≠ 0)
    (h : occList a s0 = t0 :: rest) :
    (occList a t0).take 200 = (occList a s0).take 200 := by
  have htod0 : 0 ≤ s0 % 1440 := Int.emod_nonneg s0 (by norm_num)
  have htod1 : s0 % 1440 < 1440 := Int.emod_lt_of_pos s0 (by norm_num)
  simp only [occList] at h
  cases hA : occDays a (s0 / 1440) with
  | nil =>
    rw [hA] at h
    simp only [List.map_nil, applyUntil_nil, applyCount_nil] at h
    exact absurd h (by simp)
  | cons d0 Arest =>
    rw [hA, List.map_cons] at h
    have hsort := occDays_sorted a (s0 / 1440)
    rw [hA] at hsort
    have hmono : ∀ y ∈ Arest.map
        (fun d : Nat => (s0 / 1440 + (d:Int)) * 1440 + s0 % 1440),
        (s0 / 1440 + (d0:Int)) * 1440 + s0 % 1440 < y := by
      intro y hy
      obtain ⟨dy, hdy, rfl⟩ := List.mem_map.mp hy
      have hlt : d0 < dy := List.rel_of_pairwise_cons hsort hdy
      have hlt2 : (d0:Int) < (dy:Int) := by exact_mod_cast hlt
      omega
    have hI0 : t0 = (s0 / 1440 + (d0:Int)) * 1440 + s0 % 1440 :=
      head_of_occApply a.count a.until_ _ _ hmono t0 rest h
    have ht0div : t0 / 1440 = s0 / 1440 + (d0:Int) := by
      rw [hI0]
      exact instant_ediv _ _ htod0 htod1
    have ht0mod : t0 % 1440 = s0 % 1440 := by
      rw [hI0]
      exact instant_emod _ _ htod0 htod1
    simp only [occList]
    rw [ht0div, ht0mod]
    have hmm : (occDays a (s0 / 1440 + (d0:Int))).map
          (fun d : Nat => (s0 / 1440 + (d0:Int) + (d:Int)) * 1440 + s0 % 1440) =
        ((occDays a (s0 / 1440 + (d0:Int))).map (fun d => d0 + d)).map
          (fun d : Nat => (s0 / 1440 + (d:Int)) * 1440 + s0 % 1440) := by
      rw [List.map_map]
      apply List.map_congr_left
      intro d _
      simp only [Function.comp]
      push_cast
      ring
    rw [hmm, occDays_reseed a (s0 / 1440) d0 Arest hA, List.map_append, hA]
    refine take200_applyCount _ _ _ (take200_applyUntil_ext a.until_ _ _ ?_ ?_)
    · rw [List.length_map]
      have := occDays_length_ge a (s0 / 1440) hI d0 Arest hA
      rw [hA] at this
      exact this
    · intro x hx y hy
      obtain ⟨dx, hdx, rfl⟩ := List.mem_map.mp hx
      obtain ⟨dy, hdy, rfl⟩ := List.mem_map.mp hy
      have hdxw : dx < window a := by
        have hm : dx ∈ occDays a (s0 / 1440) := by
          rw [hA]
          exact hdx
        exact ((mem_occDays a (s0 / 1440) dx).mp hm).1
      have hdyw : window a ≤ dy := by
        have hm := (List.mem_filter.mp hdy).1
        exact (List.mem_range'_1.mp hm).1
      have hlt2 : (dx:Int) < (dy:Int) := by
        exact_mod_cast lt_of_lt_of_le hdxw hdyw
      omega

theorem truthyRule_truthy (e : Doc) (r : RecurringRule)
    (h : e.truthyRule = some r) : r.truthy = true := by
  unfold Doc.truthyRule at h
  split at h
  case h_2 => exact absurd h (by simp)
  rename_i dd hdd
  split at h
  case h_2 => exact absurd h (by simp)
  rename_i r2 hr2
  split at h
  case isFalse => exact absurd h (by simp)
  case isTrue hr3 =>
    injection h with h2
    subst h2
    exact hr3

theorem materializeDates_ok_parse (s : Int) (tz : Option (Option String))
    (r : RecurringRule) (l : List Int)
    (h : materializeDates s tz r = .ok l) :
    ∃ aa, parseRuleArgs r = .ok aa ∧ l = (occList aa s).take 200 := by
  unfold materializeDates generate_recurring_dates at h
  cases hp : parseRuleArgs r with
  | error e =>
    rw [hp] at h
    exact absurd h (by simp [Except.map])
  | ok aa =>
    rw [hp] at h
    refine ⟨aa, rfl, ?_⟩
    simpa [Except.map] using h.symm

theorem parseRuleArgs_interval_ne (r : RecurringRule) (aa : RuleArgs)
    (h : parseRuleArgs r = .ok aa) : aa.interval ≠ 0 := by
  unfold parseRuleArgs at h
  simp only [bind, Except.bind, pure, Except.pure, throw, throwThe,
    MonadExceptOf.throw] at h
  split at h
  · exact absurd h (by simp)
  · split at h
    · split at h
      · cases hb : parseByday r.byday.join with
        | error e =>
          rw [hb] at h
          exact absurd h (by simp)
        | ok bw =>
          rw [hb] at h
          split at h
          · rename_i err heq
            exact absurd heq (by simp)
          · split at h
            · injection h with h2
              subst h2
              simp
            · exact absurd h (by simp)
            · split at h
              · exact absurd h (by simp)
              · injection h with h2
                subst h2
                rename_i hiz
                simpa using hiz
      · exact absurd h (by simp)
    · exact absurd h (by simp)

theorem expandEvent_length (e5 : Doc) (dd : EventDates) (rid : String)
    (delta : Int) :
    ∀ (L : List Int) (g : Nat),
      (expandEvent e5 dd rid delta L g).1.length = L.length := by
  intro L
  induction L with
  | nil =>
    intro g
    rfl
  | cons t ts ih =>
    intro g
    simp [expandEvent, ih]

/-- Every sibling produced by the expansion loop carries the shared series
id, an assigned `_id`, and the aligned dates of one target instant. -/
theorem expandEvent_props (e5 : Doc) (dd : EventDates) (rid : String)
    (delta : Int) :
    ∀ (L : List Int) (g : Nat) (d : Doc),
      d ∈ (expandEvent e5 dd rid delta L g).1 →
      d.recurrence_id = some (some rid) ∧ d.id.isSome = true ∧
      ∃ t ∈ L, d.dates =
        some { dd with start := some t, end_ := some (t + delta) } := by
  intro L
  induction L with
  | nil =>
    intro g d hd
    simp [expandEvent] at hd
  | cons t ts ih =>
    intro g d hd
    simp only [expandEvent] at hd
    rcases List.mem_cons.mp hd with h1 | h1
    · subst h1
      exact ⟨rfl, rfl, t, List.mem_cons_self t ts, rfl⟩
    · obtain ⟨hre, hi, t2, ht2, hdt⟩ := ih (g + 1) d h1
      exact ⟨hre, hi, t2, List.mem_cons_of_mem _ ht2, hdt⟩

theorem expandEvent_cons (e5 : Doc) (dd : EventDates) (rid : String)
    (delta : Int) (t : Int) (ts : List Int) (g : Nat) :
    (expandEvent e5 dd rid delta (t :: ts) g).1 =
      { e5 with
        dates := some { dd with start := some t, end_ := some (t + delta) },
        guid := some (gensym g),
        id := some (gensym g),
        recurrence_id := some (some rid),
        expiry := if e5.expiry.isSome then some (some (t + delta))
          else e5.expiry } ::
      (expandEvent e5 dd rid delta ts (g + 1)).1 := rfl

/-- `on_create` on a single recurring event: the seed document is removed
and the result is exactly the expansion batch. -/
theorem on_create_singleton (user : Option String) (g : Nat) (e : Doc)
    (r : RecurringRule) (edd : EventDates) (s0 e0 : Int) (dates : List Int)
    (hguid : e.guid = none) (hexp : e.expiry = none)
    (hr : e.truthyRule = some r) (hed : e.dates = some edd)
    (hst : edd.start = some s0) (hen : edd.end_ = some e0)
    (hmat : materializeDates s0 edd.tz (setRecurringModeRule r) = .ok dates) :
    on_create user [e] g =
      { err := none,
        docs := (expandEvent
            { set_original_creator user
                { e with guid := some (gensym g), id := some (gensym g) } with
              dates := some { edd with
                recurring_rule := some (some (setRecurringModeRule r)) } }
            { edd with recurring_rule := some (some (setRecurringModeRule r)) }
            (gensym (g + 1)) (e0 - s0) dates (g + 1 + 1)).1,
        gen := (expandEvent
            { set_original_creator user
                { e with guid := some (gensym g), id := some (gensym g) } with
              dates := some { edd with
                recurring_rule := some (some (setRecurringModeRule r)) } }
            { edd with recurring_rule := some (some (setRecurringModeRule r)) }
            (gensym (g + 1)) (e0 - s0) dates (g + 1 + 1)).2 } := by
  have hrr : edd.recurring_rule = some (some r) := by
    obtain ⟨dd, hdd, hx⟩ := truthyRule_some e r hr
    rw [hed] at hdd
    injection hdd with h2
    subst h2
    exact hx
  have htr : r.truthy = true := truthyRule_truthy e r hr
  show onCreateLoop user 1 [e] 0 g [] = _
  unfold onCreateLoop
  cases user with
  | none =>
    simp [set_original_creator, overwrite_event_expiry_date, hguid, hexp,
      Doc.truthyRule, hed, hrr, htr, hst, hen, hmat, removeFirst, onCreateLoop]
  | some uu =>
    simp [set_original_creator, overwrite_event_expiry_date, hguid, hexp,
      Doc.truthyRule, hed, hrr, htr, hst, hen, hmat, removeFirst, onCreateLoop]

theorem gensym_ne_empty (n : Nat) : gensym n ≠ "" := by
  unfold gensym
  intro h
  have h2 := congrArg String.data h
  simp at h2

theorem parseRuleArgs_frequency (r : RecurringRule) (aa : RuleArgs)
    (h : parseRuleArgs r = .ok aa) : r.frequency.isSome = true := by
  unfold parseRuleArgs at h
  simp only [bind, Except.bind, pure, Except.pure, throw, throwThe,
    MonadExceptOf.throw] at h
  split at h
  · exact absurd h (by simp)
  · split at h
    · rename_i x2 f2 heq2
      simp [heq2]
    · exact absurd h (by simp)

/-- The generated instants are strictly increasing. -/
theorem occList_pairwise (a : RuleArgs) (s : Int) :
    (occList a s).Pairwise (· < ·) := by
  unfold occList
  have h1 : ((occDays a (s / 1440)).map
      (fun (d : Nat) => (s / 1440 + (d : Int)) * 1440 + s % 1440)).Pairwise
        (· < ·) := by
    refine (occDays_sorted a (s / 1440)).map _ ?_
    intro x y hxy
    have hxy2 : (x : Int) < (y : Int) := by exact_mod_cast hxy
    omega
  have h2 : (applyUntil a.until_ ((occDays a (s / 1440)).map
      (fun (d : Nat) => (s / 1440 + (d : Int)) * 1440 + s % 1440))).Pairwise
        (· < ·) := by
    cases a.until_ with
    | none => exact h1
    | some b => exact h1.filter _
  cases a.count with
  | none => exact h2
  | some n => exact List.Pairwise.sublist (List.take_sublist n _) h2

theorem zipLongest_eq_zip {α β : Type} :
    ∀ (as : List α) (bs : List β), as.length = bs.length →
      zipLongest as bs = (as.zip bs).map (fun p => (some p.1, some p.2)) := by
  intro as
  induction as with
  | nil =>
    intro bs h
    cases bs with
    | nil => rfl
    | cons b bs2 => simp at h
  | cons a as2 ih =>
    intro bs h
    cases bs with
    | nil => simp at h
    | cons b bs2 =>
      simp only [zipLongest, List.zip_cons_cons, List.map_cons]
      rw [ih bs2 (by simpa using h)]

/-- Over equal-length lists every pair is (sibling, target instant): no
deletions are recorded and no creations are batched. -/
theorem reconcileFold_some_pairs (original : Doc) (delta : Int) (oid : String)
    (hoid : original.id = some oid) :
    ∀ (ps : List (Doc × Int)) (st : LoopSt),
      (∀ p ∈ ps, p.1.id.isSome = true) → st.u.dates.isSome = true →
      ∃ st', reconcileFold original delta
          (ps.map fun p => (some p.1, some p.2)) st = .ok st' ∧
        st'.deleted = st.deleted ∧ st'.addEvents = st.addEvents := by
  intro ps
  induction ps with
  | nil =>
    intro st _ _
    exact ⟨st, rfl, rfl, rfl⟩
  | cons p rest ih =>
    intro st hids hust
    obtain ⟨evid, hevid⟩ :=
      Option.isSome_iff_exists.mp (hids p (List.mem_cons_self p rest))
    obtain ⟨dd, hdd⟩ := Option.isSome_iff_exists.mp hust
    simp only [List.map_cons, reconcileFold, reconcileStep, hevid, hoid, hdd]
    by_cases heq : evid = oid
    · simp only [heq, eq_self_iff_true, if_true]
      obtain ⟨st', h1, h2, h3⟩ :=
        ih { st with u := { st.u with dates := some { dd with start := some p.2, end_ := some (p.2 + delta) } } }
          (fun q hq => hids q (List.mem_cons_of_mem _ hq)) (by simp)
      exact ⟨st', h1, h2, h3⟩
    · simp only [if_neg heq]
      obtain ⟨st', h1, h2, h3⟩ :=
        ih { st with patched := st.patched ++ [(evid, { st.u with guid := none, dates := some { dd with start := some p.2, end_ := some (p.2 + delta) }, skip_on_update := true })] }
          (fun q hq => hids q (List.mem_cons_of_mem _ hq))
          (by simpa using hust)
      exact ⟨st', h1, h2, h3⟩

theorem filterStartGe_all (ostart : Int) :
    ∀ (l : List Doc),
      (∀ d ∈ l, ∃ dd t, d.dates = some dd ∧ dd.start = some t ∧ ostart ≤ t) →
      filterStartGe ostart l = .ok l := by
  intro l
  induction l with
  | nil =>
    intro _
    rfl
  | cons d ds ih =>
    intro hl
    obtain ⟨dd, t, hdd, ht, hle⟩ := hl d (List.mem_cons_self d ds)
    simp only [filterStartGe, hdd, ht]
    rw [ih (fun x hx => hl x (List.mem_cons_of_mem _ hx))]
    simp [Except.map, hle]

/-- The comparison set is the whole stored series when every stored sibling
matches the series id and starts no earlier than the original. -/
theorem computeExisting_all (db : List Doc) (original : Doc)
    (odd : EventDates) (rid : String) (orr : RecurringRule) (ostart : Int)
    (hrr : odd.recurring_rule = some (some orr)) (htr : orr.truthy = true)
    (hos : odd.start = some ostart)
    (hdb : ∀ d ∈ db, d.recurrence_id = some (some rid) ∧
      ∃ dd t, d.dates = some dd ∧ dd.start = some t ∧ ostart ≤ t) :
    computeExisting db original odd rid = .ok db := by
  unfold computeExisting
  rw [hrr]
  simp only [htr, if_true]
  rw [hos]
  have hfil : db.filter (ridQuery rid) = db :=
    List.filter_eq_self.mpr (fun d hd => by simp [ridQuery, (hdb d hd).1])
  rw [hfil]
  exact filterStartGe_all ostart db (fun d hd => (hdb d hd).2)

/-- The reconciliation run over a fully-aligned series: no error, nothing
created, nothing deleted. -/
theorem runReconcile_no_net (db : List Doc) (g1 : Nat) (u4 original : Doc)
    (rid : String) (r5 : RecurringRule) (dd5 : EventDates)
    (odd : EventDates) (oid : String) (ust uen : Int) (dates : List Int)
    (hod : original.dates = some odd)
    (hoid : original.id = some oid)
    (hex : computeExisting db original odd rid = .ok db)
    (hdst : dd5.start = some ust) (hden : dd5.end_ = some uen)
    (hmat : materializeDates ust dd5.tz r5 = .ok dates)
    (hlen : db.length = dates.length)
    (hids : ∀ d ∈ db, d.id.isSome = true)
    (hu4 : u4.dates.isSome = true) :
    (runReconcile db g1 u4 original rid r5 dd5).err = none ∧
    (runReconcile db g1 u4 original rid r5 dd5).eff.created = [] ∧
    (runReconcile db g1 u4 original rid r5 dd5).eff.deleted = [] := by
  unfold runReconcile
  rw [hod]
  dsimp only
  rw [hex]
  dsimp only
  rw [hdst, hden]
  dsimp only
  rw [hmat]
  dsimp only
  rw [zipLongest_eq_zip db dates hlen]
  have hpids : ∀ p ∈ db.zip dates, p.1.id.isSome = true := by
    intro p hp
    obtain ⟨p1, p2⟩ := p
    exact hids p1 (List.mem_zip hp).1
  obtain ⟨st', h1, h2, h3⟩ := reconcileFold_some_pairs original (uen - ust) oid
    hoid (db.zip dates) { u := u4, gen := g1 } hpids (by simpa using hu4)
  rw [h1]
  dsimp only
  rw [hoid]
  exact ⟨rfl, by simpa using h3, by simpa using h2⟩

/-- **C1**: round-trip.  Expanding a fresh event carrying a valid recurrence
rule through `on_create` and then reconciling the first resulting occurrence
through `on_update` with the same unchanged rule leaves the series alone:
the reconciliation raises no error, creates zero occurrences and deletes
zero occurrences. -/
theorem c1_roundtrip (user uuser : Option String) (g gu : Nat) (e : Doc)
    (r : RecurringRule) (edd : EventDates) (s0 e0 : Int)
    (u : Doc) (udd : EventDates) (t0 : Int) (dts : List Int)
    (f0 : Doc) (sibs : List Doc)
    (hguid : e.guid = none) (hexp : e.expiry = none)
    (hr : e.truthyRule = some r) (hed : e.dates = some edd)
    (hst : edd.start = some s0) (hen : edd.end_ = some e0)
    (hmat : materializeDates s0 edd.tz (setRecurringModeRule r) =
      .ok (t0 :: dts))
    (hdocs : (on_create user [e] g).docs = f0 :: sibs)
    (hskip : u.skip_on_update = false)
    (hud : u.dates = some udd)
    (hust : udd.start = some t0)
    (huen : udd.end_ = some (t0 + (e0 - s0)))
    (hurr : udd.recurring_rule = some (some r)) :
    (on_update (f0 :: sibs) uuser gu u f0).err = none ∧
    (on_update (f0 :: sibs) uuser gu u f0).eff.created = [] ∧
    (on_update (f0 :: sibs) uuser gu u f0).eff.deleted = [] := by
  have htrr : r.truthy = true := truthyRule_truthy e r hr
  obtain ⟨aa, hparse, hdates⟩ := materializeDates_ok_parse _ _ _ _ hmat
  have hIa : aa.interval ≠ 0 := parseRuleArgs_interval_ne _ _ hparse
  have hcs := on_create_singleton user g e r edd s0 e0 (t0 :: dts)
    hguid hexp hr hed hst hen hmat
  rw [hcs] at hdocs
  dsimp only at hdocs
  -- the expansion pieces behind f0 and sibs
  rw [expandEvent_cons] at hdocs
  have hdocs2 := hdocs
  injection hdocs with hf0 hsibs
  have hf0id : f0.id = some (gensym (g + 1 + 1)) := by
    rw [← hf0]
  have hf0rid : f0.recurrence_id = some (some (gensym (g + 1))) := by
    rw [← hf0]
  have hf0d : f0.dates = some { edd with
      recurring_rule := some (some (setRecurringModeRule r)),
      start := some t0, end_ := some (t0 + (e0 - s0)) } := by
    rw [← hf0]
  have hsortD : (t0 :: dts).Pairwise (· < ·) := by
    rw [hdates]
    exact List.Pairwise.sublist (List.take_sublist 200 _) (occList_pairwise aa s0)
  have hge : ∀ t ∈ t0 :: dts, t0 ≤ t := by
    intro t ht
    rcases List.mem_cons.mp ht with h | h
    · exact le_of_eq h.symm
    · exact le_of_lt (List.rel_of_pairwise_cons hsortD h)
  have hmemprops : ∀ d ∈ f0 :: sibs,
      d.recurrence_id = some (some (gensym (g + 1))) ∧ d.id.isSome = true ∧
      ∃ t ∈ t0 :: dts, d.dates = some { edd with
        recurring_rule := some (some (setRecurringModeRule r)),
        start := some t, end_ := some (t + (e0 - s0)) } := by
    intro d hd
    rw [← hdocs2, ← expandEvent_cons] at hd
    obtain ⟨h1, h2, t, ht, h3⟩ := expandEvent_props _ _ _ _ _ _ d hd
    refine ⟨h1, h2, t, ht, ?_⟩
    rw [h3]
  have hu2tr : u.truthyRule = some r := by
    simp [Doc.truthyRule, hud, hurr, htrr]
  rw [on_update_eq_branchB (f0 :: sibs) uuser gu u f0 r hskip hu2tr]
  have hu2d : (prepUpdates uuser u).dates = some udd := by
    rw [prepUpdates_dates, hud]
    rfl
  have hgetD : (prepUpdates uuser u).dates.getD {} = udd := by
    rw [hu2d]
    rfl
  unfold branchB
  dsimp only
  have hpick : pickRid f0 gu = (gensym (g + 1), gu) := by
    unfold pickRid
    rw [hf0rid]
    simp [gensym_ne_empty (g + 1)]
  rw [hpick]
  dsimp only
  have hfreq5 : (setRecurringModeRule r).frequency.isSome = true :=
    parseRuleArgs_frequency _ _ hparse
  have htr5 : (setRecurringModeRule r).truthy = true := by
    unfold RecurringRule.truthy
    rw [hfreq5]
    rfl
  have hex : computeExisting (f0 :: sibs) f0
      { edd with
        recurring_rule := some (some (setRecurringModeRule r)),
        start := some t0, end_ := some (t0 + (e0 - s0)) }
      (gensym (g + 1)) = .ok (f0 :: sibs) := by
    refine computeExisting_all _ _ _ _ (setRecurringModeRule r) t0 rfl htr5 rfl ?_
    intro d hd
    obtain ⟨h1, h2, t, ht, h3⟩ := hmemprops d hd
    exact ⟨h1, _, t, h3, rfl, hge t ht⟩
  have hne : ∃ rest0, occList aa s0 = t0 :: rest0 := by
    cases hol : occList aa s0 with
    | nil =>
      rw [hol] at hdates
      simp at hdates
    | cons x xs =>
      rw [hol] at hdates
      rw [show (200 : Nat) = 199 + 1 from rfl, List.take_succ_cons] at hdates
      injection hdates with h1 h2
      exact ⟨xs, by rw [h1]⟩
  obtain ⟨rest0, hol⟩ := hne
  have hres := occList_reseed_take200 aa s0 t0 rest0 hIa hol
  have hdst : ({ (prepUpdates uuser u).dates.getD {} with
      recurring_rule := some (some (setRecurringModeRule r)) } :
      EventDates).start = some t0 := by
    show ((prepUpdates uuser u).dates.getD {}).start = some t0
    rw [hgetD, hust]
  have hden : ({ (prepUpdates uuser u).dates.getD {} with
      recurring_rule := some (some (setRecurringModeRule r)) } :
      EventDates).end_ = some (t0 + (e0 - s0)) := by
    show ((prepUpdates uuser u).dates.getD {}).end_ = some (t0 + (e0 - s0))
    rw [hgetD, huen]
  have hmatU : materializeDates t0
      ({ (prepUpdates uuser u).dates.getD {} with
        recurring_rule := some (some (setRecurringModeRule r)) } :
        EventDates).tz (setRecurringModeRule r) = .ok (t0 :: dts) := by
    unfold materializeDates generate_recurring_dates
    rw [hparse]
    dsimp only [Except.map]
    rw [hres, ← hdates]
  have hlen : (f0 :: sibs).length = (t0 :: dts).length := by
    rw [← hdocs2, ← expandEvent_cons]
    exact expandEvent_length _ _ _ _ _ _
  have hids : ∀ d ∈ f0 :: sibs, d.id.isSome = true := fun d hd =>
    (hmemprops d hd).2.1
  have hu4 : (normUpdates (prepUpdates uuser u) r
      (gensym (g + 1))).dates.isSome = true := by
    simp [normUpdates]
  exact runReconcile_no_net (f0 :: sibs) gu _ f0 (gensym (g + 1))
    (setRecurringModeRule r) _ _ (gensym (g + 1 + 1)) t0 (t0 + (e0 - s0))
    (t0 :: dts) hf0d hf0id hex hdst hden hmatU hlen hids hu4

def c1rule : RecurringRule :=
  { frequency := some (some "DAILY"), endRepeatMode := some (some "count"),
    count := some (some 3) }

def c1doc : Doc :=
  { name := some "ev",
    dates := some { start := some 0, end_ := some 60,
                    recurring_rule := some (some c1rule) } }

def c1upd : Doc :=
  { dates := some { start := some 0, end_ := some 60,
                    recurring_rule := some (some c1rule) } }

def c1f0 : Doc := ((on_create none [c1doc] 0).docs).getD 0 {}

def c1sibs : List Doc := ((on_create none [c1doc] 0).docs).tail

set_option maxRecDepth 1000000 in
/-- C1 witness: a concrete three-occurrence daily series round-trips through
create and update with no creations and no deletions. -/
theorem c1_roundtrip_witness :
    (on_update (c1f0 :: c1sibs) none 0 c1upd c1f0).err = none ∧
    (on_update (c1f0 :: c1sibs) none 0 c1upd c1f0).eff.created = [] ∧
    (on_update (c1f0 :: c1sibs) none 0 c1upd c1f0).eff.deleted = [] :=
  c1_roundtrip none none 0 0 c1doc c1rule
    { start := some 0, end_ := some 60, recurring_rule := some (some c1rule) }
    0 60 c1upd
    { start := some 0, end_ := some 60, recurring_rule := some (some c1rule) }
    0 [1440, 2880] c1f0 c1sibs
    rfl rfl rfl rfl rfl rfl (by decide) (by decide) rfl rfl rfl (by decide) rfl

/-! ## C3 revisited: exact positional characterization of the nested patches -/

/-- The claim's description of the nested edit batched for one
`zip_longest` pair: a patch arises exactly from a (stored sibling, target
instant) pair whose sibling is not the original; it is keyed by that
sibling's `_id`, and its payload is the normalized updates `u4` with only
the `guid` stripped, the dates aligned to the pair's own instant (plus the
updates-derived duration `delta`), and the re-entrancy flag set — the
recurrence rule and `recurrence_id` of `u4` are retained verbatim. -/
def patchOf (u4 : Doc) (udd4 : EventDates) (delta : Int) (oid : String) :
    Option Doc × Option Int → Option (String × Doc)
  | (some ev, some t) =>
    match ev.id with
    | some evid =>
      if evid = oid then none
      else some (evid, { u4 with
        guid := none,
        dates := some { udd4 with start := some t, end_ := some (t + delta) },
        skip_on_update := true })
    | none => none
  | (some _, none) => none
  | (none, _) => none

/-- The reconciliation loop's patch batch, exactly: one entry per aligned
(different sibling, instant) pair, in order, each of the `patchOf` shape.
The loop state's updates dict only ever changes in its dates' start/end, so
every patch inherits the rest of the normalized updates unchanged. -/
theorem reconcileFold_patched_eq (original : Doc) (delta : Int) (oid : String)
    (hoid : original.id = some oid) (u4 : Doc) (udd4 : EventDates) :
    ∀ (qs : List (Option Doc × Option Int)) (st : LoopSt) (X Y : Option Int),
      (∀ q ∈ qs, ∀ ev, q.1 = some ev → ev.id.isSome = true) →
      st.u = { u4 with dates := some { udd4 with start := X, end_ := Y } } →
      ∃ st', reconcileFold original delta qs st = .ok st' ∧
        st'.patched = st.patched ++ qs.filterMap (patchOf u4 udd4 delta oid) := by
  intro qs
  induction qs with
  | nil =>
    intro st X Y _ _
    exact ⟨st, rfl, by simp⟩
  | cons q rest ih =>
    intro st X Y hids hstu
    rcases q with ⟨oe, ot⟩
    cases oe with
    | none =>
      cases ot with
      | none =>
        simp only [reconcileFold, reconcileStep]
        obtain ⟨st', h1, h2⟩ := ih st X Y
          (fun q hq ev hev => hids q (List.mem_cons_of_mem _ hq) ev hev) hstu
        refine ⟨st', h1, ?_⟩
        rw [h2]
        simp [patchOf]
      | some t =>
        simp only [reconcileFold, reconcileStep]
        have hmd : (mergeDoc original st.u).dates =
            some { udd4 with start := X, end_ := Y } := by
          simp [mergeDoc, hstu, Option.orElse]
        simp only [hmd]
        obtain ⟨st', h1, h2⟩ := ih
          { st with addEvents := st.addEvents ++ [{ mergeDoc original st.u with dates := some { udd4 with start := some t, end_ := some (t + delta) }, guid := some (gensym st.gen), id := some (gensym st.gen) }], gen := st.gen + 1 } X Y
          (fun q hq ev hev => hids q (List.mem_cons_of_mem _ hq) ev hev) hstu
        refine ⟨st', h1, ?_⟩
        rw [h2]
        simp [patchOf]
    | some ev =>
      obtain ⟨evid, hevid⟩ := Option.isSome_iff_exists.mp
        (hids (some ev, ot) (List.mem_cons_self _ _) ev rfl)
      cases ot with
      | none =>
        simp only [reconcileFold, reconcileStep, hevid]
        obtain ⟨st', h1, h2⟩ := ih
          { st with deleted := st.deleted ++ [evid], histDeleted := st.histDeleted ++ [ev] } X Y
          (fun q hq ev2 hev => hids q (List.mem_cons_of_mem _ hq) ev2 hev) hstu
        refine ⟨st', h1, ?_⟩
        rw [h2]
        simp [patchOf, hevid]
      | some t =>
        simp only [reconcileFold, reconcileStep, hevid, hoid]
        by_cases hsame : evid = oid
        · simp only [hsame, eq_self_iff_true, if_true]
          rw [hstu]
          dsimp only
          obtain ⟨st', h1, h2⟩ := ih
            { st with u := { u4 with dates := some { udd4 with start := some t, end_ := some (t + delta) } } }
            (some t) (some (t + delta))
            (fun q hq ev2 hev => hids q (List.mem_cons_of_mem _ hq) ev2 hev)
            rfl
          refine ⟨st', h1, ?_⟩
          rw [h2]
          simp [patchOf, hevid, hsame]
        · simp only [if_neg hsame]
          rw [hstu]
          dsimp only
          obtain ⟨st', h1, h2⟩ := ih
            { st with u := { u4 with dates := some { udd4 with start := X, end_ := Y } }, patched := st.patched ++ [(evid, { u4 with guid := none, dates := some { udd4 with start := some t, end_ := some (t + delta) }, skip_on_update := true })] } X Y
            (fun q hq ev2 hev => hids q (List.mem_cons_of_mem _ hq) ev2 hev)
            rfl
          refine ⟨st', h1, ?_⟩
          rw [h2]
          simp [patchOf, hevid, hsame]

/-- The stored-sibling component of every `zip_longest` pair comes from the
comparison set. -/
theorem zipLongest_fst_mem {α β : Type} (l1 : List α) (l2 : List β) :
    ∀ p ∈ zipLongest l1 l2, ∀ a, p.1 = some a → a ∈ l1 := by
  induction l1 generalizing l2 with
  | nil =>
    intro p hp a ha
    simp only [zipLongest] at hp
    rcases List.mem_map.mp hp with ⟨x, hx, rfl⟩
    simp at ha
  | cons a0 as_ ih =>
    rename List β => l2
    cases l2 with
    | nil =>
      intro p hp a ha
      rcases hp with _ | ⟨_, hp⟩
      · simp at ha
        simp [ha]
      · exact List.mem_cons_of_mem _ (ih [] p hp a ha)
    | cons b0 bs =>
      intro p hp a ha
      rcases hp with _ | ⟨_, hp⟩
      · simp at ha
        simp [ha]
      · exact List.mem_cons_of_mem _ (ih bs p hp a ha)

/-- The reconciliation run's patch batch, exactly: the `zip_longest`
pairing of the comparison set with the regenerated instants, filtered to
the different-sibling pairs, each patch of the `patchOf` shape at its own
pair's instant. -/
theorem runReconcile_patched_eq (db : List Doc) (g1 : Nat) (u4 original : Doc)
    (rid : String) (r5 : RecurringRule) (dd5 : EventDates)
    (odd udd4 : EventDates) (oid : String) (ust uen : Int)
    (existing : List Doc) (dates : List Int)
    (hod : original.dates = some odd) (hoid : original.id = some oid)
    (hex : computeExisting db original odd rid = .ok existing)
    (hdst : dd5.start = some ust) (hden : dd5.end_ = some uen)
    (hmat : materializeDates ust dd5.tz r5 = .ok dates)
    (hids : ∀ d ∈ existing, d.id.isSome = true)
    (hu4 : u4.dates = some udd4) :
    (runReconcile db g1 u4 original rid r5 dd5).eff.patched =
      (zipLongest existing dates).filterMap (patchOf u4 udd4 (uen - ust) oid) := by
  unfold runReconcile
  rw [hod]
  dsimp only
  rw [hex]
  dsimp only
  rw [hdst, hden]
  dsimp only
  rw [hmat]
  dsimp only
  have hinv0 : ({ u := u4, gen := g1 } : LoopSt).u =
      { u4 with dates := some { udd4 with start := udd4.start, end_ := udd4.end_ } } := by
    show u4 = _
    rw [show ({ udd4 with start := udd4.start, end_ := udd4.end_ } : EventDates) = udd4 from rfl]
    rw [← hu4]
  obtain ⟨st', h1, h2⟩ := reconcileFold_patched_eq original (uen - ust) oid hoid
    u4 udd4 (zipLongest existing dates) { u := u4, gen := g1 }
    udd4.start udd4.end_
    (fun q hq ev hev => hids ev (zipLongest_fst_mem existing dates q hq ev hev))
    hinv0
  rw [h1]
  dsimp only
  rw [hoid]
  simpa using h2

/-- C3 (amended): in the update path with a rule present, the nested edits
batched for the stored siblings are exactly one per aligned
(different sibling, target instant) `zip_longest` pair, keyed by that
sibling's own `_id`; each patch is the normalized updates with only the
`guid` stripped — the normalized recurrence rule and the series
`recurrence_id` are retained in it — its start set to the pair's own
aligned instant, its end to that instant plus the duration computed from
the updates, and the re-entrancy flag set. -/
theorem c3_nested_patch_amended (db : List Doc) (user : Option String)
    (g : Nat) (updates original : Doc) (r : RecurringRule)
    (udd odd : EventDates) (oid : String) (ust uen : Int)
    (existing : List Doc) (dates : List Int)
    (hskip : updates.skip_on_update = false)
    (hrule : updates.truthyRule = some r)
    (hud : updates.dates = some udd)
    (hust : udd.start = some ust) (huen : udd.end_ = some uen)
    (hod : original.dates = some odd)
    (hoid : original.id = some oid)
    (hex : computeExisting db original odd (pickRid original g).1 = .ok existing)
    (hmat : materializeDates ust udd.tz (setRecurringModeRule r) = .ok dates)
    (hids : ∀ d ∈ existing, d.id.isSome = true) :
    (on_update db user g updates original).eff.patched =
      (zipLongest existing dates).filterMap
        (patchOf (normUpdates (prepUpdates user updates) r (pickRid original g).1)
          { udd with recurring_rule := some (some (setRecurringModeRule r)) }
          (uen - ust) oid) ∧
    ∀ q ∈ (on_update db user g updates original).eff.patched,
      q.2.guid = none ∧ q.2.skip_on_update = true ∧
      q.2.recurrence_id = some (some (pickRid original g).1) ∧
      ∃ dd, q.2.dates = some dd ∧
        dd.recurring_rule = some (some (setRecurringModeRule r)) := by
  rw [on_update_eq_branchB db user g updates original r hskip hrule]
  unfold branchB
  have hdd : (prepUpdates user updates).dates.getD {} = udd := by
    rw [prepUpdates_dates, hud]
    rfl
  dsimp only
  rw [hdd]
  have hkey := runReconcile_patched_eq db (pickRid original g).2
    (normUpdates (prepUpdates user updates) r (pickRid original g).1) original
    (pickRid original g).1 (setRecurringModeRule r)
    { udd with recurring_rule := some (some (setRecurringModeRule r)) }
    odd { udd with recurring_rule := some (some (setRecurringModeRule r)) }
    oid ust uen existing dates hod hoid hex hust huen hmat hids
    (by unfold normUpdates; rw [hdd])
  refine ⟨hkey, ?_⟩
  intro q hq
  rw [hkey] at hq
  obtain ⟨p, hp, hpq⟩ := List.mem_filterMap.mp hq
  rcases p with ⟨oe, ot⟩
  cases oe with
  | none => simp [patchOf] at hpq
  | some ev =>
    cases ot with
    | none => simp [patchOf] at hpq
    | some t =>
      simp only [patchOf] at hpq
      rcases hevid : ev.id with _ | evid
      · simp only [hevid] at hpq
        exact absurd hpq (by simp)
      · simp only [hevid] at hpq
        by_cases hsame : evid = oid
        · rw [if_pos hsame] at hpq
          exact absurd hpq (by simp)
        · rw [if_neg hsame] at hpq
          injection hpq with h2
          subst h2
          exact ⟨rfl, rfl, rfl, _, rfl, rfl⟩

set_option maxRecDepth 100000 in
/-- C3 amended witness: the concrete two-occurrence series run patches
exactly the second, aligned sibling, keyed by its `_id`, with the
normalized rule and the series id retained in the patch. -/
theorem c3_nested_patch_amended_witness :
    ((on_update [c3orig, c3sib] none 7 c3upd c3orig).eff.patched =
      (zipLongest [c3orig, c3sib] [0, 1440]).filterMap
        (patchOf (normUpdates (prepUpdates none c3upd) c3rule (pickRid c3orig 7).1)
          { start := some 0, end_ := some 60,
            recurring_rule := some (some (setRecurringModeRule c3rule)) }
          (60 - 0) "a") ∧
    ∀ q ∈ (on_update [c3orig, c3sib] none 7 c3upd c3orig).eff.patched,
      q.2.guid = none ∧ q.2.skip_on_update = true ∧
      q.2.recurrence_id = some (some (pickRid c3orig 7).1) ∧
      ∃ dd, q.2.dates = some dd ∧
        dd.recurring_rule = some (some (setRecurringModeRule c3rule))) :=
  c3_nested_patch_amended [c3orig, c3sib] none 7 c3upd c3orig c3rule
    { start := some 0, end_ := some 60, recurring_rule := some (some c3rule) }
    { start := some 0, end_ := some 60, recurring_rule := some (some c3rule) }
    "a" 0 60 [c3orig, c3sib] [0, 1440]
    rfl rfl rfl rfl rfl rfl rfl (by decide) (by decide) (by decide)

end Planning
